import Mathlib

/-!
Shallow embedding of the laitos command-processing core: the filter package
(PINAndShortcuts, TranslateSequences, LintText, SayEmptyOutput, NotifyViaEmail)
and common.CommandProcessor.Process, together with proofs of the behaviour the
specification claims for them.

Go strings are modelled as lists of characters; the byte-indexed operations of
the source (slicing, length) are modelled at character granularity, which
coincides with the source on 7-bit command traffic.  Library routines the
source calls (strings.TrimSpace, strings.Split, strings.Replace,
subtle.ConstantTimeCompare, strconv.Atoi, the regexp engine) are modelled by
explicit functions next to their uses.
-/

namespace Laitos

/-- Go strings modelled as lists of characters. -/
abbrev GoStr := List Char

/-- Model of Go unicode.IsSpace on the Latin-1 range (the range the command
pipeline exercises): space, tab, newline, vertical tab, form feed, carriage
return, next line and no-break space. -/
def goIsSpace (c : Char) : Bool :=
  c = ' ' || c = '\t' || c = '\n' || c = '\x0b' || c = '\x0c' || c = '\r' ||
  c.toNat = 0x85 || c.toNat = 0xA0

/-- The ASCII class of the regexp [[:space:]]. -/
def asciiSpace (c : Char) : Bool :=
  c = ' ' || c = '\t' || c = '\n' || c = '\x0b' || c = '\x0c' || c = '\r'

/-- Go unicode.IsPrint below code point 128: printable ASCII. -/
def asciiPrint (c : Char) : Bool := 0x20 ≤ c.toNat && c.toNat ≤ 0x7e

/-- The ASCII class of the regexp [[:graph:]]: visible characters. -/
def asciiGraph (c : Char) : Bool := 0x21 ≤ c.toNat && c.toNat ≤ 0x7e

/-- ASCII digits, the class \d of the Go regexp package. -/
def isDigitChar (c : Char) : Bool := '0' ≤ c && c ≤ '9'

/-- Model of Go strings.TrimSpace: remove leading and trailing white space. -/
def trimSpace (s : GoStr) : GoStr :=
  (s.dropWhile goIsSpace).rdropWhile goIsSpace

/-- Model of Go strings.Split(s, "\n"). -/
def splitNl : GoStr → List GoStr
  | [] => [[]]
  | c :: rest =>
    if c = '\n' then [] :: splitNl rest
    else
      match splitNl rest with
      | [] => [[c]]
      | l :: ls => (c :: l) :: ls

/-- Concatenation of a list of strings. -/
def joinAll (ls : List GoStr) : GoStr := ls.foldr (· ++ ·) []

/-- The scan of Go strings.Replace with count -1 and a non-empty pattern:
replace each non-overlapping occurrence left to right. -/
def replaceScan (pat rep : GoStr) : GoStr → GoStr
  | [] => []
  | c :: rest =>
    if pat.isPrefixOf (c :: rest) then
      rep ++ replaceScan pat rep (rest.drop (pat.length - 1))
    else
      c :: replaceScan pat rep rest
termination_by s => s.length
decreasing_by
  · simp only [List.length_cons, List.length_drop]
    omega
  · simp only [List.length_cons]
    omega

/-- Model of Go strings.Replace(s, old, new, -1): with an empty pattern the
replacement is inserted before every character and at the end, otherwise every
non-overlapping occurrence of the pattern is replaced left to right. -/
def goReplaceAll (s old new : GoStr) : GoStr :=
  if old = [] then new ++ s.foldr (fun c acc => c :: (new ++ acc)) []
  else replaceScan old new s

/-- toolbox.Command: the wire-neutral request. -/
structure Command where
  TimeoutSec : Int
  Content : GoStr
  DaemonName : GoStr
deriving DecidableEq, Repr, Inhabited

/-- The error values met by the command-processing pipeline.  Distinct
constructors model distinct Go error values. -/
inductive GoError where
  /-- filter.ErrPINAndShortcutNotFound. -/
  | pinAndShortcutNotFound
  /-- The configuration error "both PIN and shortcuts are undefined". -/
  | pinShortcutsUndefined
  /-- misc.ErrEmergencyLockDown. -/
  | emergencyLockDown
  /-- common.ErrRateLimitExceeded. -/
  | rateLimitExceeded
  /-- common.ErrBadPrefix. -/
  | badPrefix
  /-- common.ErrBadPLT. -/
  | badPLT
  /-- The error "PLT is not available because LintText is not used". -/
  | pltNoLintText
  /-- The validation error of toolbox.Command.Trim on empty content. -/
  | emptyCommand
  /-- Any other error value (feature errors, third-party filter errors). -/
  | custom (msg : GoStr)
deriving DecidableEq, Repr

/-- Rendering of an error value, the Go method call err.Error(). -/
def GoError.text : GoError → GoStr
  | .pinAndShortcutNotFound => "failed to match PIN/shortcut".toList
  | .pinShortcutsUndefined => "both PIN and shortcuts are undefined".toList
  | .emergencyLockDown => "emergency lock-down is in effect".toList
  | .rateLimitExceeded => "command processor internal rate limit has been exceeded".toList
  | .badPrefix => "bad prefix or feature is not configured".toList
  | .badPLT => ".plt P L T command".toList
  | .pltNoLintText => "PLT is not available because LintText is not used".toList
  | .emptyCommand => "empty command".toList
  | .custom msg => msg

/-- filter.PINAndShortcuts configuration.  The Go map is modelled as an
association list (its graph); a nil map is modelled as none. -/
structure PINAndShortcuts where
  PIN : GoStr
  Shortcuts : Option (List (GoStr × GoStr))
deriving DecidableEq, Repr

/-- Lookup in the shortcut map; a nil map has no entries. -/
def shortcutLookup (m : Option (List (GoStr × GoStr))) (key : GoStr) : Option GoStr :=
  match m with
  | none => none
  | some entries => (entries.find? (fun e => e.1 == key)).map (·.2)

/-- Modelled from the spec: toolbox.Command.Lines is absent from the sources;
the spec says it yields the content split by line terminators. -/
def Command.Lines (cmd : Command) : List GoStr := splitNl cmd.Content

/-- The line scan of PINAndShortcuts.Transform: for each line in order, trim
it, try the shortcut map, then try the PIN prefix (the comparison
subtle.ConstantTimeCompare(line[0:len(PIN)], PIN) == 1 is modelled as list
equality of the leading len(PIN) characters). -/
def pinScan (pin : PINAndShortcuts) (cmd : Command) : List GoStr → Command × Option GoError
  | [] => (cmd, some .pinAndShortcutNotFound)
  | rawLine :: rest =>
    let line := trimSpace rawLine
    match shortcutLookup pin.Shortcuts line with
    | some shortcut => ({ cmd with Content := shortcut }, none)
    | none =>
      if line.length > pin.PIN.length ∧ line.take pin.PIN.length = pin.PIN then
        ({ cmd with Content := line.drop pin.PIN.length }, none)
      else
        pinScan pin cmd rest

/-- filter.PINAndShortcuts.Transform. -/
def PINAndShortcuts.Transform (pin : PINAndShortcuts) (cmd : Command) :
    Command × Option GoError :=
  if pin.PIN = [] ∧ (pin.Shortcuts = none ∨ pin.Shortcuts = some []) then
    (⟨0, [], []⟩, some .pinShortcutsUndefined)
  else
    pinScan pin cmd cmd.Lines

/-- filter.TranslateSequences configuration. -/
structure TranslateSequences where
  Sequences : Option (List (List GoStr))
deriving DecidableEq, Repr

/-- filter.TranslateSequences.Transform: literal substring replacements in
declaration order, tuples of length other than two silently skipped. -/
def TranslateSequences.Transform (tr : TranslateSequences) (cmd : Command) :
    Command × Option GoError :=
  match tr.Sequences with
  | none => (cmd, none)
  | some seqs =>
    let newContent := seqs.foldl
      (fun acc tuple =>
        match tuple with
        | [a, b] => goReplaceAll acc a b
        | _ => acc) cmd.Content
    ({ cmd with Content := newContent }, none)

/-- filter.LintText configuration. -/
structure LintText where
  TrimSpaces : Bool
  CompressToSingleLine : Bool
  KeepVisible7BitCharOnly : Bool
  CompressSpaces : Bool
  BeginPosition : Int
  MaxLength : Int
deriving DecidableEq, Repr, Inhabited

/-- Step 1 of LintText.Transform: write every line trimmed and followed by a
newline, then trim the whole. -/
def lintTrim (s : GoStr) : GoStr :=
  trimSpace (joinAll ((splitNl s).map (fun l => trimSpace l ++ ['\n'])))

/-- Step 2 of LintText.Transform: strings.Replace(ret, "\n", ";", -1). -/
def toSingleLine (s : GoStr) : GoStr := goReplaceAll s ['\n'] [';']

/-- Step 3 of LintText.Transform per character: keep printable or white 7-bit
characters, replace the rest by a question mark. -/
def keepChar (c : Char) : Char :=
  if c.toNat < 128 && (asciiPrint c || asciiSpace c) then c else '?'

/-- Step 3 of LintText.Transform. -/
def keep7Bit (s : GoStr) : GoStr := s.map keepChar

/-- Step 4 of LintText.Transform: RegexConsecutiveSpaces.ReplaceAllString, the
regexp [[:space:]]+ replaced by a single space. -/
def compressRuns : GoStr → GoStr
  | [] => []
  | c :: rest =>
    if asciiSpace c then ' ' :: compressRuns (rest.dropWhile asciiSpace)
    else c :: compressRuns rest
termination_by s => s.length
decreasing_by
  · simp only [List.length_cons]
    have := (List.dropWhile_suffix (l := rest) asciiSpace).sublist.length_le
    omega
  · simp only [List.length_cons]
    omega

/-- filter.LintText.Transform acting on the combined output string: the six
steps in order, each gated by its flag. -/
def LintText.lintOut (lint : LintText) (input : GoStr) : GoStr :=
  let ret := input
  let ret := if lint.TrimSpaces then lintTrim ret else ret
  let ret := if lint.CompressToSingleLine then toSingleLine ret else ret
  let ret := if lint.KeepVisible7BitCharOnly then keep7Bit ret else ret
  let ret := if lint.CompressSpaces then compressRuns ret else ret
  let ret := if lint.BeginPosition > 0 then
      (if (ret.length : Int) > lint.BeginPosition then ret.drop lint.BeginPosition.toNat else [])
    else ret
  let ret := if lint.MaxLength > 0 then
      (if (ret.length : Int) > lint.MaxLength then ret.take lint.MaxLength.toNat else ret)
    else ret
  ret

/-- toolbox.Result. -/
structure Result where
  Command : Command
  Output : GoStr
  Error : Option GoError
  CombinedOutput : GoStr
deriving DecidableEq, Repr, Inhabited

/-- filter.LintText.Transform: rewrite the combined output, never an error. -/
def LintText.Transform (lint : LintText) (r : Result) : Result × Option GoError :=
  ({ r with CombinedOutput := lint.lintOut r.CombinedOutput }, none)

/-- filter.EmptyOutputText. -/
def EmptyOutputText : GoStr := "EMPTY OUTPUT".toList

/-- filter.SayEmptyOutput.Transform: when no graphic character occurs in the
combined output, replace it wholesale. -/
def sayEmptyTransform (r : Result) : Result × Option GoError :=
  if r.CombinedOutput.any asciiGraph then (r, none)
  else ({ r with CombinedOutput := EmptyOutputText }, none)

/-- The filter.ResultFilter implementations of the repository, and a generic
case for third-party implementations of the interface. -/
inductive ResultFilter where
  | lintText (lint : LintText)
  | sayEmptyOutput
  | notifyViaEmail
  | generic (f : Result → Result × Option GoError)

/-- filter.ResultFilter.Transform.  NotifyViaEmail only enqueues asynchronous
mail and never alters the result or errs. -/
def ResultFilter.Transform : ResultFilter → Result → Result × Option GoError
  | .lintText lint, r => lint.Transform r
  | .sayEmptyOutput, r => sayEmptyTransform r
  | .notifyViaEmail, r => (r, none)
  | .generic f, r => f r

/-- Whether a result filter is outside the repository implementations. -/
def ResultFilter.isGeneric : ResultFilter → Bool
  | .generic _ => true
  | _ => false

/-- The type switch resultFilter.(*filter.LintText) of Process. -/
def ResultFilter.isLintText : ResultFilter → Bool
  | .lintText _ => true
  | _ => false

/-- The filter.CommandFilter implementations of the repository, and a generic
case for third-party implementations of the interface. -/
inductive CommandFilter where
  | pinAndShortcuts (pin : PINAndShortcuts)
  | translateSequences (tr : TranslateSequences)
  | generic (f : Command → Command × Option GoError)

/-- filter.CommandFilter.Transform. -/
def CommandFilter.Transform : CommandFilter → Command → Command × Option GoError
  | .pinAndShortcuts pin, cmd => pin.Transform cmd
  | .translateSequences tr, cmd => tr.Transform cmd
  | .generic f, cmd => f cmd

/-- Modelled from the spec: toolbox.Result.ResetCombinedText is absent from
the sources; the spec says the combined output becomes "Error|Output" when an
error is present, else Output. -/
def Result.resetCombinedText (r : Result) : Result :=
  match r.Error with
  | some e => { r with CombinedOutput := e.text ++ ('|' :: r.Output) }
  | none => { r with CombinedOutput := r.Output }

/-- Modelled from the spec: toolbox.Command.Trim is absent from the sources;
it replaces the content by its trimmed form, and Process fails with a
validation error when the trimmed content is empty. -/
def Command.TrimContent (cmd : Command) : Command :=
  { cmd with Content := trimSpace cmd.Content }

/-- Modelled from the spec: toolbox.Command.FindAndRemovePrefix is absent from
the sources; it reports whether the pattern begins the trimmed content and,
when it does, replaces the content by the trimmed content with the pattern
removed (otherwise the content is left alone). -/
def Command.findAndRemove (cmd : Command) (pat : GoStr) : Bool × Command :=
  let trimmed := trimSpace cmd.Content
  if pat.isPrefixOf trimmed then (true, { cmd with Content := trimmed.drop pat.length })
  else (false, cmd)

/-- common.PrefixCommandPLT. -/
def PrefixCommandPLT : GoStr := ".plt".toList

/-- common.MaxCmdPerSecHardLimit. -/
def MaxCmdPerSecHardLimit : Int := 1000

/-- The log redaction marker of CommandProcessor.Process. -/
def redactionMarker : GoStr := "<hidden due to AESDecryptTrigger or TwoFATrigger>".toList

/-- Modelled from the spec: toolbox.AESDecryptTrigger, an opaque sensitive
trigger identifier provided by the feature registry. -/
def AESDecryptTrigger : GoStr := ".a".toList

/-- Modelled from the spec: toolbox.TwoFATrigger, the second sensitive trigger
identifier. -/
def TwoFATrigger : GoStr := ".2".toList

/-- Numeric value of a digit string. -/
def digitsVal (s : GoStr) : Int :=
  s.foldl (fun acc c => acc * 10 + ((c.toNat : Int) - 48)) 0

/-- Model of Go strconv.Atoi on the digit-only matches of the PLT regexp,
returning the Go pair (value, ok): an empty or non-digit string yields zero
and failure, a value beyond the 64-bit range yields the saturated maximum and
failure, per the strconv documentation. -/
def goAtoiPair (s : GoStr) : Int × Bool :=
  if s = [] ∨ ¬(s.all isDigitChar = true) then (0, false)
  else if digitsVal s ≤ 9223372036854775807 then (digitsVal s, true)
  else (9223372036854775807, false)

/-- Model of common.RegexCommandWithPLT.FindStringSubmatch: the leftmost-first
match of [^0-9]*([0-9]+)[^0-9]+([0-9]+)[^0-9]*([0-9]+)(.*), returning the four
capture groups.  With at least three maximal digit runs the three runs are the
groups and the text group runs from after the third run to the next newline;
with exactly two digit runs the second run, when at least two digits long, is
split before its last digit by backtracking; otherwise there is no match. -/
def pltFindSubmatch (s : GoStr) : Option (GoStr × GoStr × GoStr × GoStr) :=
  let afterLead := s.dropWhile (fun c => !isDigitChar c)
  let g1 := afterLead.takeWhile isDigitChar
  let s2 := afterLead.dropWhile isDigitChar
  let mid1 := s2.takeWhile (fun c => !isDigitChar c)
  let s3 := s2.dropWhile (fun c => !isDigitChar c)
  let g2 := s3.takeWhile isDigitChar
  let s4 := s3.dropWhile isDigitChar
  let s5 := s4.dropWhile (fun c => !isDigitChar c)
  let g3 := s5.takeWhile isDigitChar
  let s6 := s5.dropWhile isDigitChar
  if g1 = [] ∨ mid1 = [] ∨ g2 = [] then none
  else if g3 ≠ [] then some (g1, g2, g3, s6.takeWhile (fun c => c ≠ '\n'))
  else if g2.length ≥ 2 then
    some (g1, g2.dropLast, g2.drop (g2.length - 1), s4.takeWhile (fun c => c ≠ '\n'))
  else none

/-- The invocation trace of one Process call. -/
inductive Event where
  /-- A command filter Transform was invoked. -/
  | applyCmdFilter
  /-- The matched feature Execute was invoked with this command. -/
  | execFeature (cmd : Command)
  /-- A LintText result filter with this configuration was applied. -/
  | applyLintText (lint : LintText)
  /-- Some other result filter was applied. -/
  | applyOtherResultFilter
deriving DecidableEq, Repr

/-- A toolbox feature as the processor sees it: its Execute routine. -/
structure Feature where
  Execute : Command → Result

/-- common.CommandProcessor configuration.  The feature registry map is
modelled as a list in its iteration order. -/
structure CommandProcessor where
  LookupByTrigger : List (GoStr × Feature)
  CommandFilters : List CommandFilter
  ResultFilters : List ResultFilter
  MaxCmdPerSec : Int

/-- misc.RateLimit parameters as initialiseOnce constructs them. -/
structure RateLimit where
  UnitSecs : Int
  MaxCount : Int
deriving DecidableEq, Repr

/-- common.CommandProcessor.initialiseOnce: reset an out-of-range MaxCmdPerSec
to the hard limit and construct the rate limiter from it. -/
def initialiseOnce (maxCmdPerSec : Int) : Int × RateLimit :=
  let m := if maxCmdPerSec < 1 ∨ maxCmdPerSec > MaxCmdPerSecHardLimit then MaxCmdPerSecHardLimit
           else maxCmdPerSec
  (m, { UnitSecs := 1, MaxCount := m })

/-- The command-filter walk of Process: stop at the first disapproval, keeping
the command value the failing filter returned. -/
def walkCommandFilters : List CommandFilter → Command → Command × Option GoError × List Event
  | [], cmd => (cmd, none, [])
  | f :: fs, cmd =>
    match f.Transform cmd with
    | (cmd2, some e) => (cmd2, some e, [.applyCmdFilter])
    | (cmd2, none) =>
      let (cmd3, err2, evs) := walkCommandFilters fs cmd2
      (cmd3, err2, .applyCmdFilter :: evs)

/-- The event recorded for one result filter application. -/
def resultFilterEvent : ResultFilter → Event
  | .lintText lint => .applyLintText lint
  | _ => .applyOtherResultFilter

/-- The result-filter walk of Process: substitute the PLT override for the
LintText filter, stop at the first filter error and return the minimal result
carrying the recorded command-filter disapproval. -/
def walkResultFilters (hasOverride : Bool) (override : LintText)
    (disapproval : Option GoError) :
    List ResultFilter → Result → Result × Option GoError × List Event
  | [], ret => (ret, none, [])
  | f :: fs, ret =>
    let f2 := if f.isLintText && hasOverride then .lintText override else f
    match f2.Transform ret with
    | (ret2, some e) =>
      ({ Command := ret2.Command, Output := [], Error := disapproval, CombinedOutput := [] },
       some e, [resultFilterEvent f2])
    | (ret2, none) =>
      let (ret3, err2, evs) := walkResultFilters hasOverride override disapproval fs ret2
      (ret3, err2, resultFilterEvent f2 :: evs)

/-- The observable outcome of one Process call: the returned result, the final
logged content, the invocation trace, the recorded command-filter disapproval
and the error of a failing result filter when one failed. -/
structure ProcOut where
  ret : Result
  logContent : GoStr
  events : List Event
  disapproval : Option GoError
  resultFilterError : Option GoError
deriving Inhabited

/-- The finalisation block of Process (the code after the result label):
attach the command carrying the logged content, reset the combined text and,
when requested, walk the result filters. -/
def finalise (proc : CommandProcessor) (runResultFilters hasOverride : Bool)
    (override : LintText) (disapproval : Option GoError) (cmd : Command)
    (logContent : GoStr) (ret0 : Result) (evs : List Event) : ProcOut :=
  let ret1 := ({ ret0 with Command := { cmd with Content := logContent } }).resetCombinedText
  if runResultFilters then
    let (ret2, rfErr, evs2) :=
      walkResultFilters hasOverride override disapproval proc.ResultFilters ret1
    ⟨ret2, logContent, evs ++ evs2, disapproval, rfErr⟩
  else
    ⟨ret1, logContent, evs, disapproval, none⟩

/-- The trigger scan of Process: iterate the registry; the first feature whose
trigger prefixes the trimmed content wins and the trigger is removed. -/
def findTrigger : List (GoStr × Feature) → Command → Option (GoStr × Feature × Command)
  | [], _ => none
  | (trig, feat) :: rest, cmd =>
    match cmd.findAndRemove trig with
    | (true, cmd2) => some (trig, feat, cmd2)
    | (false, _) => findTrigger rest cmd

/-- The LintText search of the PLT block: the first LintText configuration
among the result filters. -/
def findLintTextFilter : List ResultFilter → Option LintText
  | [] => none
  | .lintText lint :: _ => some lint
  | _ :: rest => findLintTextFilter rest

/-- The zero result value the early returns of Process construct. -/
def errResult (e : GoError) : Result :=
  { Command := default, Output := [], Error := some e, CombinedOutput := [] }

/-- The feature lookup and execution tail of Process: snapshot the content for
logging, find the trigger, redact sensitive triggers, run the feature. -/
def runFeature (proc : CommandProcessor) (runResultFilters hasOverride : Bool)
    (override : LintText) (cmd : Command) (evs : List Event) : ProcOut :=
  match findTrigger proc.LookupByTrigger cmd with
  | none =>
    finalise proc runResultFilters hasOverride override none cmd cmd.Content
      (errResult .badPrefix) evs
  | some (trig, feat, cmd2) =>
    let logContent := if trig = AESDecryptTrigger ∨ trig = TwoFATrigger then redactionMarker
                      else cmd.Content
    finalise proc runResultFilters hasOverride override none cmd2 logContent
      (feat.Execute cmd2) (evs ++ [.execFeature cmd2])

/-- The parameter-parsing tail of the PLT block of Process: parse the three
integers and the residual command, assigning fields in the order of the
source.  The Boolean reports success; on failure the override and command are
returned in the state their fields had reached at the failure point, as the
goto of the source leaves them. -/
def pltParams (lint0 : LintText) (cmd3 : Command) : Bool × LintText × Command :=
  match pltFindSubmatch cmd3.Content with
  | none => (false, lint0, cmd3)
  | some (p, l, t, rest) =>
    match goAtoiPair p with
    | (pv, okP) =>
      if !okP then (false, { lint0 with BeginPosition := pv }, cmd3)
      else
        match goAtoiPair l with
        | (lv, okL) =>
          if !okL then (false, { lint0 with BeginPosition := pv, MaxLength := lv }, cmd3)
          else
            match goAtoiPair t with
            | (tv, okT) =>
              if !okT then
                (false, { lint0 with BeginPosition := pv, MaxLength := lv },
                 { cmd3 with TimeoutSec := tv })
              else if rest = [] then
                (false, { lint0 with BeginPosition := pv, MaxLength := lv },
                 { cmd3 with TimeoutSec := tv, Content := rest })
              else
                (true, { lint0 with BeginPosition := pv, MaxLength := lv },
                 { cmd3 with TimeoutSec := tv, Content := rest })

/-- common.CommandProcessor.Process.  The emergency lockdown flag and the rate
limiter admission are inputs; the returned record carries the observable
outcome of the call. -/
def Process (proc : CommandProcessor) (emergencyLockDown rateLimitOK : Bool)
    (cmd : Command) (runResultFilters : Bool) : ProcOut :=
  if emergencyLockDown then
    ⟨errResult .emergencyLockDown, [], [], none, none⟩
  else if !rateLimitOK then
    ⟨errResult .rateLimitExceeded, [], [], none, none⟩
  else
    match walkCommandFilters proc.CommandFilters cmd with
    | (cmd1, some e, evs) =>
      finalise proc runResultFilters false default (some e) cmd1 [] (errResult e) evs
    | (cmd1, none, evs) =>
      if cmd1.TrimContent.Content = [] then
        finalise proc runResultFilters false default none cmd1.TrimContent []
          (errResult .emptyCommand) evs
      else
        match cmd1.TrimContent.findAndRemove PrefixCommandPLT with
        | (false, _) => runFeature proc runResultFilters false default cmd1.TrimContent evs
        | (true, cmd3) =>
          match findLintTextFilter proc.ResultFilters with
          | none =>
            finalise proc runResultFilters false default none cmd3 []
              (errResult .pltNoLintText) evs
          | some lint0 =>
            match pltParams lint0 cmd3 with
            | (false, ov, cmdf) =>
              finalise proc runResultFilters true ov none cmdf [] (errResult .badPLT) evs
            | (true, ov, cmdf) =>
              runFeature proc runResultFilters true ov cmdf evs

/-! ## The claim-side reading of PINAndShortcuts.Transform (claim C1) -/

/-- The match tried on one trimmed line, as claim C1 words it: first the
shortcut map; otherwise, when the line is strictly longer than the PIN and its
leading PIN-length characters equal the PIN, the remainder of the line. -/
def claimLineMatch (pin : PINAndShortcuts) (line : GoStr) : Option GoStr :=
  match shortcutLookup pin.Shortcuts line with
  | some v => some v
  | none =>
    if line.length > pin.PIN.length ∧ line.take pin.PIN.length = pin.PIN then
      some (line.drop pin.PIN.length)
    else none

/-- PINAndShortcuts.Transform as claim C1 words it: inspect each trimmed line
of the content in order, the first matching line wins and supplies the new
content; when no line matches, the PIN/shortcut-not-found error. -/
def claimPinTransform (pin : PINAndShortcuts) (cmd : Command) : Command × Option GoError :=
  match (cmd.Lines.map trimSpace).findSome? (claimLineMatch pin) with
  | some content => ({ cmd with Content := content }, none)
  | none => (cmd, some .pinAndShortcutNotFound)

/-- The line scan of the source agrees with the first-match scan of the
claim on every list of lines. -/
theorem pinScan_eq_claim (pin : PINAndShortcuts) (cmd : Command) (lines : List GoStr) :
    pinScan pin cmd lines =
      match (lines.map trimSpace).findSome? (claimLineMatch pin) with
      | some content => ({ cmd with Content := content }, none)
      | none => (cmd, some .pinAndShortcutNotFound) := by
  induction lines with
  | nil => rfl
  | cons l rest ih =>
    simp only [pinScan, List.map_cons, List.findSome?]
    cases hsc : shortcutLookup pin.Shortcuts (trimSpace l) with
    | some v => simp [claimLineMatch, hsc]
    | none =>
      by_cases hp : (trimSpace l).length > pin.PIN.length ∧
          (trimSpace l).take pin.PIN.length = pin.PIN
      · simp [claimLineMatch, hsc, hp]
      · simp [claimLineMatch, hsc, hp, ih]

/-! ## Claim theorems -/

/-- C1: for every Command and every PINAndShortcuts configuration with a
non-empty PIN or a non-empty shortcut map, Transform scans the trimmed lines
of the content in order, trying the shortcut map before the PIN prefix on each
line; the first matching line supplies the returned content (the mapped value,
or the remainder of the line after the PIN), and when no line matches the
result is the PINAndShortcutNotFound error. -/
theorem pin_transform_matches_claim (pin : PINAndShortcuts) (cmd : Command)
    (h : pin.PIN ≠ [] ∨ ∃ m, pin.Shortcuts = some m ∧ m ≠ []) :
    pin.Transform cmd = claimPinTransform pin cmd := by
  have hcfg : ¬(pin.PIN = [] ∧ (pin.Shortcuts = none ∨ pin.Shortcuts = some [])) := by
    rintro ⟨hp, hs⟩
    rcases h with h | ⟨m, hm, hmne⟩
    · exact h hp
    · rcases hs with hs | hs <;> rw [hm] at hs
      · cases hs
      · exact hmne (Option.some.injEq _ _ ▸ hs)
  rw [PINAndShortcuts.Transform, if_neg hcfg, claimPinTransform, pinScan_eq_claim]

/-- Witness for C1 at a concrete configuration and command. -/
theorem pin_transform_matches_claim_witness :
    PINAndShortcuts.Transform ⟨"verysecret".toList, none⟩ ⟨10, "verysecret.s echo".toList, []⟩ =
      claimPinTransform ⟨"verysecret".toList, none⟩ ⟨10, "verysecret.s echo".toList, []⟩ :=
  pin_transform_matches_claim _ _ (Or.inl (by decide))

/-- C5: with the emergency lockdown flag set, Process returns the
EmergencyLockDown error with an empty invocation trace: no command filter
Transform, no feature Execute and no result filter Transform runs. -/
theorem process_lockdown_no_invocation (proc : CommandProcessor) (rateOK : Bool)
    (cmd : Command) (runResultFilters : Bool) :
    Process proc true rateOK cmd runResultFilters =
      ⟨errResult .emergencyLockDown, [], [], none, none⟩ := rfl

/-- C7: with an empty PIN and an empty or nil shortcut map, every Transform
fails with the configuration error, and that error is distinct from the
credential error PINAndShortcutNotFound. -/
theorem pin_config_error_distinct (pin : PINAndShortcuts) (cmd : Command)
    (hPIN : pin.PIN = []) (hSc : pin.Shortcuts = none ∨ pin.Shortcuts = some []) :
    (pin.Transform cmd).2 = some .pinShortcutsUndefined ∧
      GoError.pinShortcutsUndefined ≠ GoError.pinAndShortcutNotFound := by
  refine ⟨?_, by decide⟩
  rw [PINAndShortcuts.Transform, if_pos ⟨hPIN, hSc⟩]

/-- Witness for C7 at a concrete configuration and command. -/
theorem pin_config_error_distinct_witness :
    (PINAndShortcuts.Transform ⟨[], none⟩ ⟨10, "hello".toList, []⟩).2 =
        some .pinShortcutsUndefined ∧
      GoError.pinShortcutsUndefined ≠ GoError.pinAndShortcutNotFound :=
  pin_config_error_distinct ⟨[], none⟩ ⟨10, "hello".toList, []⟩ rfl (Or.inl rfl)

/-- Counterexample to C8 as stated: a configured value below 1 yields an
effective admission limit of 1000, not 1. -/
theorem maxCmdPerSec_below_one_counterexample :
    (initialiseOnce 0).2.MaxCount = 1000 ∧ ¬((initialiseOnce 0).2.MaxCount = 1) := by
  constructor <;> decide

/-- C8 amended: on first initialisation the configured MaxCmdPerSec is kept
when it lies in [1, 1000] and is otherwise replaced by the hard limit 1000
(also when it lies below 1); the rate limiter admits MaxCount per UnitSecs = 1
second. -/
theorem maxCmdPerSec_clamp (n : Int) :
    ((1 ≤ n ∧ n ≤ 1000) → (initialiseOnce n).2.MaxCount = n) ∧
    (n < 1 → (initialiseOnce n).2.MaxCount = 1000) ∧
    (n > 1000 → (initialiseOnce n).2.MaxCount = 1000) ∧
    (initialiseOnce n).2.UnitSecs = 1 := by
  simp only [initialiseOnce, MaxCmdPerSecHardLimit]
  refine ⟨fun h => ?_, fun h => ?_, fun h => ?_, ?_⟩
  · rw [if_neg (by omega)]
  · rw [if_pos (by omega)]
  · rw [if_pos (by omega)]
  · trivial

/-- Witness for the amended C8 at in-range and out-of-range values. -/
theorem maxCmdPerSec_clamp_witness :
    (initialiseOnce 500).2.MaxCount = 500 ∧ (initialiseOnce 0).2.MaxCount = 1000 ∧
      (initialiseOnce 5000).2.MaxCount = 1000 :=
  ⟨(maxCmdPerSec_clamp 500).1 (by decide), (maxCmdPerSec_clamp 0).2.1 (by decide),
    (maxCmdPerSec_clamp 5000).2.2.1 (by decide)⟩

/-- On a successful scan, pinScan only replaces the content. -/
theorem pinScan_frame (pin : PINAndShortcuts) (cmd : Command) (lines : List GoStr)
    (h : (pinScan pin cmd lines).2 = none) :
    (pinScan pin cmd lines).1.TimeoutSec = cmd.TimeoutSec ∧
      (pinScan pin cmd lines).1.DaemonName = cmd.DaemonName := by
  induction lines with
  | nil => cases h
  | cons l rest ih =>
    simp only [pinScan] at h ⊢
    cases hsc : shortcutLookup pin.Shortcuts (trimSpace l) with
    | some v => simp [hsc]
    | none =>
      by_cases hp : (trimSpace l).length > pin.PIN.length ∧
          (trimSpace l).take pin.PIN.length = pin.PIN
      · simp [hsc, hp]
      · simp only [hsc, hp, if_false] at h ⊢
        exact ih h

/-- C10: a successful PINAndShortcuts.Transform and every
TranslateSequences.Transform return the input command with only the content
replaced: TimeoutSec and DaemonName are unchanged. -/
theorem filters_preserve_other_fields :
    (∀ (pin : PINAndShortcuts) (cmd : Command),
        (pin.Transform cmd).2 = none →
          (pin.Transform cmd).1.TimeoutSec = cmd.TimeoutSec ∧
            (pin.Transform cmd).1.DaemonName = cmd.DaemonName) ∧
    (∀ (tr : TranslateSequences) (cmd : Command),
        (tr.Transform cmd).1.TimeoutSec = cmd.TimeoutSec ∧
          (tr.Transform cmd).1.DaemonName = cmd.DaemonName) := by
  constructor
  · intro pin cmd h
    rw [PINAndShortcuts.Transform] at h ⊢
    by_cases hcfg : pin.PIN = [] ∧ (pin.Shortcuts = none ∨ pin.Shortcuts = some [])
    · rw [if_pos hcfg] at h; cases h
    · rw [if_neg hcfg] at h ⊢
      exact pinScan_frame pin cmd cmd.Lines h
  · intro tr cmd
    rw [TranslateSequences.Transform]
    cases tr.Sequences <;> simp

/-- Witness for C10 at concrete filters and commands. -/
theorem filters_preserve_other_fields_witness :
    ((PINAndShortcuts.Transform ⟨"verysecret".toList, none⟩
        ⟨9, "verysecret.s x".toList, "httpd".toList⟩).1.TimeoutSec = 9 ∧
      (PINAndShortcuts.Transform ⟨"verysecret".toList, none⟩
        ⟨9, "verysecret.s x".toList, "httpd".toList⟩).1.DaemonName = "httpd".toList) ∧
    ((TranslateSequences.Transform ⟨some [["a".toList, "b".toList]]⟩
        ⟨7, "a cat".toList, "mail".toList⟩).1.TimeoutSec = 7 ∧
      (TranslateSequences.Transform ⟨some [["a".toList, "b".toList]]⟩
        ⟨7, "a cat".toList, "mail".toList⟩).1.DaemonName = "mail".toList) :=
  ⟨filters_preserve_other_fields.1 ⟨"verysecret".toList, none⟩
      ⟨9, "verysecret.s x".toList, "httpd".toList⟩ (by decide),
    filters_preserve_other_fields.2 ⟨some [["a".toList, "b".toList]]⟩
      ⟨7, "a cat".toList, "mail".toList⟩⟩

/-! ## Structural lemmas about the Process pipeline -/

/-- Result filters of the repository never err and never touch the embedded
command; only the generic interface case can. -/
theorem resultFilter_nonGeneric_transform (f : ResultFilter) (r : Result)
    (h : f.isGeneric = false) :
    (f.Transform r).2 = none ∧ (f.Transform r).1.Command = r.Command := by
  cases f with
  | lintText lint => simp [ResultFilter.Transform, LintText.Transform]
  | sayEmptyOutput =>
    rw [ResultFilter.Transform, sayEmptyTransform]
    split <;> simp
  | notifyViaEmail => simp [ResultFilter.Transform]
  | generic f => cases h

/-- When the result-filter walk reports a filter error, the returned minimal
result carries the recorded command-filter disapproval as its error. -/
theorem walkResultFilters_err (hv : Bool) (ov : LintText) (d : Option GoError) :
    ∀ (fs : List ResultFilter) (r : Result) (e : GoError),
      (walkResultFilters hv ov d fs r).2.1 = some e →
      (walkResultFilters hv ov d fs r).1.Error = d := by
  intro fs
  induction fs with
  | nil => intro r e h; cases h
  | cons f fs ih =>
    intro r e
    rcases htr : (if f.isLintText && hv then ResultFilter.lintText ov else f).Transform r with
      ⟨ret2, err⟩
    cases err with
    | some e2 =>
      simp only [walkResultFilters, htr]
      intro _
      trivial
    | none =>
      rcases hw : walkResultFilters hv ov d fs ret2 with ⟨r3, e3, evs3⟩
      simp only [walkResultFilters, htr, hw]
      intro h
      have hres := ih ret2 e (by rw [hw]; exact h)
      rw [hw] at hres
      exact hres

/-- With no generic result filter, the walk never errs and never touches the
embedded command. -/
theorem walkResultFilters_nonGeneric (hv : Bool) (ov : LintText) (d : Option GoError) :
    ∀ (fs : List ResultFilter) (r : Result), (∀ f ∈ fs, f.isGeneric = false) →
      (walkResultFilters hv ov d fs r).2.1 = none ∧
        (walkResultFilters hv ov d fs r).1.Command = r.Command := by
  intro fs
  induction fs with
  | nil => intro r _; exact ⟨rfl, rfl⟩
  | cons f fs ih =>
    intro r h
    have hf2 : (if f.isLintText && hv then ResultFilter.lintText ov else f).isGeneric = false := by
      split
      · rfl
      · exact h f (by simp)
    rcases htr : (if f.isLintText && hv then ResultFilter.lintText ov else f).Transform r with
      ⟨ret2, err⟩
    have hnc := resultFilter_nonGeneric_transform _ r hf2
    rw [htr] at hnc
    cases err with
    | some e2 => exact Option.noConfusion (show (some e2 : Option GoError) = none from hnc.1)
    | none =>
      rcases hw : walkResultFilters hv ov d fs ret2 with ⟨r3, e3, evs3⟩
      simp only [walkResultFilters, htr, hw]
      have hres := ih ret2 (fun g hg => h g (List.mem_cons_of_mem f hg))
      rw [hw] at hres
      exact ⟨hres.1, hres.2.trans hnc.2⟩

/-- resetCombinedText leaves the embedded command alone. -/
theorem resetCombinedText_command (r : Result) : r.resetCombinedText.Command = r.Command := by
  rw [Result.resetCombinedText]
  cases r.Error <;> rfl

/-- The finalisation block records as disapproval exactly its argument. -/
theorem finalise_disapproval (proc : CommandProcessor) (rf hov : Bool) (ov : LintText)
    (d : Option GoError) (c : Command) (lc : GoStr) (r0 : Result) (evs : List Event) :
    (finalise proc rf hov ov d c lc r0 evs).disapproval = d := by
  cases rf with
  | false => rfl
  | true =>
    rcases hw : walkResultFilters hov ov d proc.ResultFilters
        (({ r0 with Command := { c with Content := lc } }).resetCombinedText) with ⟨r2, e2, evs2⟩
    simp only [finalise, hw, if_true]

/-- When a result filter errs during finalisation, the returned result carries
the recorded command-filter disapproval. -/
theorem finalise_err (proc : CommandProcessor) (rf hov : Bool) (ov : LintText)
    (d : Option GoError) (c : Command) (lc : GoStr) (r0 : Result) (evs : List Event)
    (e : GoError) (h : (finalise proc rf hov ov d c lc r0 evs).resultFilterError = some e) :
    (finalise proc rf hov ov d c lc r0 evs).ret.Error = d := by
  cases rf with
  | false => exact Option.noConfusion (show (none : Option GoError) = some e from h)
  | true =>
    rcases hw : walkResultFilters hov ov d proc.ResultFilters
        (({ r0 with Command := { c with Content := lc } }).resetCombinedText) with ⟨r2, e2, evs2⟩
    simp only [finalise, hw, if_true] at h ⊢
    have hres := walkResultFilters_err hov ov d proc.ResultFilters
        (({ r0 with Command := { c with Content := lc } }).resetCombinedText) e
        (by rw [hw]; exact h)
    rw [hw] at hres
    exact hres

/-- With no generic result filter, the finalisation block returns a result
whose embedded command carries the logged content. -/
theorem finalise_content (proc : CommandProcessor) (rf hov : Bool) (ov : LintText)
    (d : Option GoError) (c : Command) (lc : GoStr) (r0 : Result) (evs : List Event)
    (h : ∀ f ∈ proc.ResultFilters, f.isGeneric = false) :
    (finalise proc rf hov ov d c lc r0 evs).ret.Command.Content =
      (finalise proc rf hov ov d c lc r0 evs).logContent := by
  have hbase :
      (({ r0 with Command := { c with Content := lc } }).resetCombinedText).Command.Content
        = lc := by
    rw [resetCombinedText_command]
  cases rf with
  | false => exact hbase
  | true =>
    rcases hw : walkResultFilters hov ov d proc.ResultFilters
        (({ r0 with Command := { c with Content := lc } }).resetCombinedText) with ⟨r2, e2, evs2⟩
    simp only [finalise, hw, if_true]
    have hng := walkResultFilters_nonGeneric hov ov d proc.ResultFilters
        (({ r0 with Command := { c with Content := lc } }).resetCombinedText) h
    rw [hw] at hng
    rw [show r2.Command = _ from hng.2]
    exact hbase

/-- Every Process call either returns one of the two early guard results or
passes through the finalisation block. -/
theorem process_shape (proc : CommandProcessor) (lockdown rateOK : Bool) (cmd : Command)
    (runRF : Bool) :
    (∃ e, Process proc lockdown rateOK cmd runRF = ⟨errResult e, [], [], none, none⟩) ∨
    (∃ hov ov d c lc r0 evs,
        Process proc lockdown rateOK cmd runRF = finalise proc runRF hov ov d c lc r0 evs) := by
  have hrun : ∀ (hov : Bool) (ov : LintText) (c : Command) (evs : List Event),
      ∃ hov2 ov2 d c2 lc r0 evs2,
        runFeature proc runRF hov ov c evs = finalise proc runRF hov2 ov2 d c2 lc r0 evs2 := by
    intro hov ov c evs
    rw [runFeature]
    rcases hft : findTrigger proc.LookupByTrigger c with _ | ⟨trig, feat, cmd2⟩
    · exact ⟨_, _, _, _, _, _, _, rfl⟩
    · exact ⟨_, _, _, _, _, _, _, rfl⟩
  cases lockdown with
  | true => exact Or.inl ⟨_, rfl⟩
  | false =>
  cases rateOK with
  | false => exact Or.inl ⟨_, rfl⟩
  | true =>
  rcases hw : walkCommandFilters proc.CommandFilters cmd with ⟨cmd1, err, evs⟩
  simp only [Process, hw, Bool.not_true, Bool.false_eq_true, if_false]
  cases err with
  | some e => exact Or.inr ⟨_, _, _, _, _, _, _, rfl⟩
  | none =>
    simp only []
    by_cases hc : cmd1.TrimContent.Content = []
    · rw [if_pos hc]
      exact Or.inr ⟨_, _, _, _, _, _, _, rfl⟩
    · rw [if_neg hc]
      rcases hpl : cmd1.TrimContent.findAndRemove PrefixCommandPLT with ⟨isPLT, cmd3⟩
      cases isPLT with
      | false => exact Or.inr (hrun _ _ _ _)
      | true =>
        simp only []
        rcases hfl : findLintTextFilter proc.ResultFilters with _ | lint0
        · exact Or.inr ⟨_, _, _, _, _, _, _, rfl⟩
        · simp only []
          rcases hpp : pltParams lint0 cmd3 with ⟨ok, ov, cmdf⟩
          cases ok with
          | false => exact Or.inr ⟨_, _, _, _, _, _, _, rfl⟩
          | true => exact Or.inr (hrun _ _ _ _)

/-- C2: Process always returns a result, and the command embedded in it
carries exactly the content snapshot the processor logged (empty on the guard
and filter-failure paths, the post-filter snapshot or the redaction marker
otherwise) and never the content as mutated further down the pipeline.  The
hypothesis restricts the result filters to the implementations of the
repository (the generic interface case may rewrite the embedded command
arbitrarily). -/
theorem process_content_is_logged (proc : CommandProcessor) (lockdown rateOK : Bool)
    (cmd : Command) (runRF : Bool)
    (h : ∀ f ∈ proc.ResultFilters, f.isGeneric = false) :
    (Process proc lockdown rateOK cmd runRF).ret.Command.Content =
      (Process proc lockdown rateOK cmd runRF).logContent := by
  rcases process_shape proc lockdown rateOK cmd runRF with ⟨e, hs⟩ |
    ⟨hov, ov, d, c, lc, r0, evs, hs⟩
  · rw [hs]; rfl
  · rw [hs]
    exact finalise_content proc runRF hov ov d c lc r0 evs h

/-- Witness for C2 at a concrete processor and command. -/
theorem process_content_is_logged_witness :
    (Process
        { LookupByTrigger := []
          CommandFilters := [.pinAndShortcuts ⟨"verysecret".toList, none⟩]
          ResultFilters := [.lintText ⟨true, false, false, false, 0, 35⟩, .sayEmptyOutput]
          MaxCmdPerSec := 5 }
        false true ⟨10, "verysecret.s echo hello".toList, []⟩ true).ret.Command.Content =
      (Process
        { LookupByTrigger := []
          CommandFilters := [.pinAndShortcuts ⟨"verysecret".toList, none⟩]
          ResultFilters := [.lintText ⟨true, false, false, false, 0, 35⟩, .sayEmptyOutput]
          MaxCmdPerSec := 5 }
        false true ⟨10, "verysecret.s echo hello".toList, []⟩ true).logContent :=
  process_content_is_logged _ false true _ true (by decide)

/-- C6: when a result filter errs during the walk, the returned result
carries whatever error the command-filter phase recorded (nil when every
command filter approved); the result filter error itself is reported apart
and never placed in the returned result. -/
theorem resultFilter_error_keeps_disapproval (proc : CommandProcessor)
    (lockdown rateOK : Bool) (cmd : Command) (e : GoError)
    (h : (Process proc lockdown rateOK cmd true).resultFilterError = some e) :
    (Process proc lockdown rateOK cmd true).ret.Error =
      (Process proc lockdown rateOK cmd true).disapproval := by
  rcases process_shape proc lockdown rateOK cmd true with ⟨e2, hs⟩ |
    ⟨hov, ov, d, c, lc, r0, evs, hs⟩
  · rw [hs] at h; cases h
  · rw [hs] at h ⊢
    rw [finalise_err proc true hov ov d c lc r0 evs e h, finalise_disapproval]

/-! ## Event-trace lemmas for the PLT claim -/

/-- The command-filter walk only records command-filter invocations. -/
theorem walkCommandFilters_events : ∀ (fs : List CommandFilter) (cmd : Command) (ev : Event),
    ev ∈ (walkCommandFilters fs cmd).2.2 → ev = .applyCmdFilter := by
  intro fs
  induction fs with
  | nil => intro cmd ev h; cases h
  | cons f fs ih =>
    intro cmd ev
    rcases htr : f.Transform cmd with ⟨cmd2, err⟩
    cases err with
    | some e =>
      simp only [walkCommandFilters, htr]
      intro h
      simpa using h
    | none =>
      rcases hw : walkCommandFilters fs cmd2 with ⟨cmd3, err2, evs⟩
      simp only [walkCommandFilters, htr, hw]
      intro h
      rcases List.mem_cons.mp h with h | h
      · exact h
      · have hres := ih cmd2 ev
        rw [hw] at hres
        exact hres h

/-- With the PLT override active, every LintText application recorded by the
result-filter walk uses the override configuration. -/
theorem walkResultFilters_lint_event (ov : LintText) (d : Option GoError) :
    ∀ (fs : List ResultFilter) (r : Result) (k : LintText),
      Event.applyLintText k ∈ (walkResultFilters true ov d fs r).2.2 → k = ov := by
  intro fs
  induction fs with
  | nil => intro r k h; cases h
  | cons f fs ih =>
    intro r k
    have hev : ∀ k2 : LintText,
        resultFilterEvent (if f.isLintText && true then ResultFilter.lintText ov else f) =
          Event.applyLintText k2 → k2 = ov := by
      cases f with
      | lintText lint =>
        intro k2 h2
        simp only [ResultFilter.isLintText, Bool.and_true, if_true, resultFilterEvent,
          Event.applyLintText.injEq] at h2
        exact h2.symm
      | sayEmptyOutput => intro k2 h2; simp [ResultFilter.isLintText, resultFilterEvent] at h2
      | notifyViaEmail => intro k2 h2; simp [ResultFilter.isLintText, resultFilterEvent] at h2
      | generic g => intro k2 h2; simp [ResultFilter.isLintText, resultFilterEvent] at h2
    rcases htr : (if f.isLintText && true then ResultFilter.lintText ov else f).Transform r with
      ⟨r2, err⟩
    cases err with
    | some e =>
      simp only [walkResultFilters, htr]
      intro h
      exact hev k (List.mem_singleton.mp h).symm
    | none =>
      rcases hw : walkResultFilters true ov d fs r2 with ⟨r3, e3, evs3⟩
      simp only [walkResultFilters, htr, hw]
      intro h
      rcases List.mem_cons.mp h with h | h
      · exact hev k h.symm
      · have hres := ih r2 k
        rw [hw] at hres
        exact hres h

/-- Events recorded before finalisation survive it. -/
theorem finalise_events_mem (proc : CommandProcessor) (rf hov : Bool) (ov : LintText)
    (d : Option GoError) (c : Command) (lc : GoStr) (r0 : Result) (evs : List Event)
    (ev : Event) (h : ev ∈ evs) :
    ev ∈ (finalise proc rf hov ov d c lc r0 evs).events := by
  cases rf with
  | false => exact h
  | true =>
    rcases hw : walkResultFilters hov ov d proc.ResultFilters
        (({ r0 with Command := { c with Content := lc } }).resetCombinedText) with ⟨r2, e2, evs2⟩
    simp only [finalise, hw, if_true]
    exact List.mem_append_left evs2 h

/-- With the PLT override active, a LintText application recorded by the
finalisation either predates it or uses the override. -/
theorem finalise_lint_event (proc : CommandProcessor) (rf : Bool) (ov : LintText)
    (d : Option GoError) (c : Command) (lc : GoStr) (r0 : Result) (evs : List Event)
    (k : LintText)
    (h : Event.applyLintText k ∈ (finalise proc rf true ov d c lc r0 evs).events) :
    Event.applyLintText k ∈ evs ∨ k = ov := by
  cases rf with
  | false => exact Or.inl h
  | true =>
    rcases hw : walkResultFilters true ov d proc.ResultFilters
        (({ r0 with Command := { c with Content := lc } }).resetCombinedText) with ⟨r2, e2, evs2⟩
    simp only [finalise, hw, if_true] at h
    rcases List.mem_append.mp h with h | h
    · exact Or.inl h
    · right
      have hres := walkResultFilters_lint_event ov d proc.ResultFilters
          (({ r0 with Command := { c with Content := lc } }).resetCombinedText) k
      rw [hw] at hres
      exact hres h

/-- A successful trigger scan preserves timeout and daemon name and strips the
matched trigger from the trimmed content. -/
theorem findTrigger_spec : ∀ (regs : List (GoStr × Feature)) (c : Command) (trig : GoStr)
    (feat : Feature) (cmd2 : Command),
    findTrigger regs c = some (trig, feat, cmd2) →
    cmd2.TimeoutSec = c.TimeoutSec ∧ cmd2.DaemonName = c.DaemonName ∧
      trig.isPrefixOf (trimSpace c.Content) = true ∧
      cmd2.Content = (trimSpace c.Content).drop trig.length := by
  intro regs
  induction regs with
  | nil => intro c trig feat cmd2 h; cases h
  | cons tf rest ih =>
    rcases tf with ⟨trig0, feat0⟩
    intro c trig feat cmd2
    by_cases hp : trig0.isPrefixOf (trimSpace c.Content) = true
    · simp only [findTrigger, Command.findAndRemove, if_pos hp]
      intro h
      simp only [Option.some.injEq, Prod.mk.injEq] at h
      obtain ⟨h1, _, h3⟩ := h
      subst h1
      subst h3
      exact ⟨rfl, rfl, hp, rfl⟩
    · simp only [findTrigger, Command.findAndRemove, if_neg hp]
      intro h
      exact ih c trig feat cmd2 h

/-- With a parse that converts cleanly and a non-empty residual, the PLT block
overrides begin position, maximum length and timeout verbatim. -/
theorem pltParams_ok (lint0 : LintText) (cmd3 : Command) (p l t rest : GoStr) (P L T : Int)
    (h5 : pltFindSubmatch cmd3.Content = some (p, l, t, rest))
    (h6 : goAtoiPair p = (P, true)) (h7 : goAtoiPair l = (L, true))
    (h8 : goAtoiPair t = (T, true)) (h9 : rest ≠ []) :
    pltParams lint0 cmd3 =
      (true, { lint0 with BeginPosition := P, MaxLength := L },
        { cmd3 with TimeoutSec := T, Content := rest }) := by
  simp only [pltParams, h5, h6, h7, h8, Bool.not_true, Bool.false_eq_true, if_false, if_neg h9]

/-- A matching trigger routes Process into the feature execution tail. -/
theorem runFeature_hit (proc : CommandProcessor) (rf hov : Bool) (ov : LintText)
    (c : Command) (evs : List Event) (trig : GoStr) (feat : Feature) (cmdExec : Command)
    (h : findTrigger proc.LookupByTrigger c = some (trig, feat, cmdExec)) :
    runFeature proc rf hov ov c evs =
      finalise proc rf hov ov none cmdExec
        (if trig = AESDecryptTrigger ∨ trig = TwoFATrigger then redactionMarker else c.Content)
        (feat.Execute cmdExec) (evs ++ [.execFeature cmdExec]) := by
  simp only [runFeature, h]

/-- On the successful PLT path, Process reduces to the feature execution tail
with the override built from the parsed parameters. -/
theorem process_plt_path (proc : CommandProcessor) (cmd cmd1 : Command) (evs : List Event)
    (h1 : walkCommandFilters proc.CommandFilters cmd = (cmd1, none, evs))
    (h2 : ¬(cmd1.TrimContent.Content = []))
    (cmd3 : Command)
    (h3 : cmd1.TrimContent.findAndRemove PrefixCommandPLT = (true, cmd3))
    (lint0 : LintText)
    (h4 : findLintTextFilter proc.ResultFilters = some lint0)
    (p l t rest : GoStr) (P L T : Int)
    (h5 : pltFindSubmatch cmd3.Content = some (p, l, t, rest))
    (h6 : goAtoiPair p = (P, true)) (h7 : goAtoiPair l = (L, true))
    (h8 : goAtoiPair t = (T, true)) (h9 : rest ≠ []) (runRF : Bool) :
    Process proc false true cmd runRF =
      runFeature proc runRF true { lint0 with BeginPosition := P, MaxLength := L }
        { cmd3 with TimeoutSec := T, Content := rest } evs := by
  have hpp := pltParams_ok lint0 cmd3 p l t rest P L T h5 h6 h7 h8 h9
  simp only [Process, h1, Bool.not_true, Bool.false_eq_true, if_false, if_neg h2, h3, h4, hpp]

/-- C3 amended: whenever the PLT parse succeeds (five regexp groups, the three
integers convert, the residual is non-empty) and a LintText result filter is
configured, every LintText applied during result-filter processing carries
BeginPosition = P and MaxLength = L verbatim, and the matched feature Execute
is invoked with TimeoutSec = T and with the residual command after trimming
and removal of the feature trigger prefix. -/
theorem plt_override_applied (proc : CommandProcessor) (cmd cmd1 : Command) (evs : List Event)
    (h1 : walkCommandFilters proc.CommandFilters cmd = (cmd1, none, evs))
    (h2 : ¬(cmd1.TrimContent.Content = []))
    (cmd3 : Command)
    (h3 : cmd1.TrimContent.findAndRemove PrefixCommandPLT = (true, cmd3))
    (lint0 : LintText)
    (h4 : findLintTextFilter proc.ResultFilters = some lint0)
    (p l t rest : GoStr) (P L T : Int)
    (h5 : pltFindSubmatch cmd3.Content = some (p, l, t, rest))
    (h6 : goAtoiPair p = (P, true)) (h7 : goAtoiPair l = (L, true))
    (h8 : goAtoiPair t = (T, true)) (h9 : rest ≠ [])
    (trig : GoStr) (feat : Feature) (cmdExec : Command)
    (h10 : findTrigger proc.LookupByTrigger { cmd3 with TimeoutSec := T, Content := rest } =
      some (trig, feat, cmdExec)) :
    (∀ k, Event.applyLintText k ∈ (Process proc false true cmd true).events →
        k.BeginPosition = P ∧ k.MaxLength = L) ∧
      Event.execFeature cmdExec ∈ (Process proc false true cmd true).events ∧
      cmdExec.TimeoutSec = T ∧
      cmdExec.Content = (trimSpace rest).drop trig.length := by
  have hshape := process_plt_path proc cmd cmd1 evs h1 h2 cmd3 h3 lint0 h4
    p l t rest P L T h5 h6 h7 h8 h9 true
  have hrf := runFeature_hit proc true true { lint0 with BeginPosition := P, MaxLength := L }
    { cmd3 with TimeoutSec := T, Content := rest } evs trig feat cmdExec h10
  have hft := findTrigger_spec proc.LookupByTrigger
    { cmd3 with TimeoutSec := T, Content := rest } trig feat cmdExec h10
  rw [hshape, hrf]
  refine ⟨?_, ?_, hft.1, hft.2.2.2⟩
  · intro k hk
    rcases finalise_lint_event proc true { lint0 with BeginPosition := P, MaxLength := L }
        none cmdExec _ _ (evs ++ [.execFeature cmdExec]) k hk with hk2 | hk2
    · rcases List.mem_append.mp hk2 with hk3 | hk3
      · have hcf := walkCommandFilters_events proc.CommandFilters cmd (Event.applyLintText k)
        rw [h1] at hcf
        exact absurd (hcf hk3) (by simp)
      · exact absurd (List.mem_singleton.mp hk3) (by simp)
    · rw [hk2]
      exact ⟨rfl, rfl⟩
  · exact finalise_events_mem proc true true _ none cmdExec _ _ _ _ (by simp)

/-- The feature and processor of the PLT examples: one feature triggered by
".s" that copies the command content into the output. -/
def pltFeature : Feature :=
  ⟨fun c => { Command := c, Output := c.Content, Error := none, CombinedOutput := [] }⟩

/-- A processor with no command filter, a default LintText and the ".s"
feature, exercising the PLT path. -/
def pltProc : CommandProcessor :=
  { LookupByTrigger := [(".s".toList, pltFeature)]
    CommandFilters := []
    ResultFilters := [.lintText default]
    MaxCmdPerSec := 1 }

/-- Counterexample to C3 as stated: for the input ".plt 1 2 3 .s x" the parse
succeeds with residual command " .s x", but the feature Execute is invoked
with content " x" (the residual after trimming and trigger removal), which
differs from the residual command. -/
theorem plt_residual_counterexample :
    pltFindSubmatch " 1 2 3 .s x".toList =
        some ("1".toList, "2".toList, "3".toList, " .s x".toList) ∧
      (Process pltProc false true ⟨1, ".plt 1 2 3 .s x".toList, []⟩ true).events =
        [Event.execFeature ⟨3, " x".toList, []⟩,
         Event.applyLintText ⟨false, false, false, false, 1, 2⟩] ∧
      " x".toList ≠ " .s x".toList := by
  refine ⟨by decide, ?_, by decide⟩
  decide

/-- Witness for the amended C3 on the same concrete processor and command. -/
theorem plt_override_applied_witness :
    (∀ k, Event.applyLintText k ∈
        (Process pltProc false true ⟨1, ".plt 1 2 3 .s x".toList, []⟩ true).events →
        k.BeginPosition = 1 ∧ k.MaxLength = 2) ∧
      Event.execFeature ⟨3, " x".toList, []⟩ ∈
        (Process pltProc false true ⟨1, ".plt 1 2 3 .s x".toList, []⟩ true).events ∧
      (⟨3, " x".toList, []⟩ : Command).TimeoutSec = 3 ∧
      (⟨3, " x".toList, []⟩ : Command).Content =
        (trimSpace " .s x".toList).drop ".s".toList.length :=
  plt_override_applied pltProc ⟨1, ".plt 1 2 3 .s x".toList, []⟩
    ⟨1, ".plt 1 2 3 .s x".toList, []⟩ [] rfl (by decide)
    ⟨1, " 1 2 3 .s x".toList, []⟩ (by decide)
    default rfl
    "1".toList "2".toList "3".toList " .s x".toList 1 2 3
    (by decide) (by decide) (by decide) (by decide) (by decide)
    ".s".toList pltFeature ⟨3, " x".toList, []⟩ rfl

/-! ## LintText idempotence (claim C4): trimming lemmas -/

/-- A list whose head fails the predicate is untouched by dropWhile. -/
theorem dropWhile_head_false (p : Char → Bool) (s : GoStr)
    (h : ∀ c, s.head? = some c → p c = false) : s.dropWhile p = s := by
  cases s with
  | nil => rfl
  | cons c rest => simp [List.dropWhile_cons, h c rfl]

/-- A list untouched by dropWhile has a head failing the predicate. -/
theorem dropWhile_eq_self_head (p : Char → Bool) (a : Char) (rest : GoStr)
    (h : (a :: rest).dropWhile p = a :: rest) : p a = false := by
  by_cases hp : p a = true
  · exfalso
    rw [List.dropWhile_cons_of_pos hp] at h
    have h1 := (List.dropWhile_suffix (l := rest) p).sublist.length_le
    rw [h] at h1
    simp at h1
  · exact Bool.eq_false_iff.mpr hp

/-- A list whose last element fails the predicate is untouched by
rdropWhile. -/
theorem rdropWhile_last_false (p : Char → Bool) (s : GoStr)
    (h : ∀ c, s.getLast? = some c → p c = false) : s.rdropWhile p = s := by
  rw [List.rdropWhile_eq_self_iff]
  intro hl
  have := h (s.getLast hl) (List.getLast?_eq_getLast s hl)
  simp [this]

/-- A list untouched by rdropWhile has a last element failing the
predicate. -/
theorem rdropWhile_eq_self_last (p : Char → Bool) (s : GoStr) (h : s.rdropWhile p = s)
    (c : Char) (hc : s.getLast? = some c) : p c = false := by
  have hne : s ≠ [] := by rintro rfl; cases hc
  have hlast := List.rdropWhile_eq_self_iff.mp h hne
  rw [List.getLast?_eq_getLast s hne] at hc
  have hcc : s.getLast hne = c := by injection hc
  rw [← hcc]
  exact Bool.eq_false_iff.mpr hlast

/-- trimSpace only removes characters. -/
theorem trimSpace_sublist (s : GoStr) : (trimSpace s).Sublist s :=
  ((List.rdropWhile_prefix goIsSpace (s.dropWhile goIsSpace)).sublist).trans
    (List.dropWhile_suffix goIsSpace).sublist

/-- A string equal to its own trim is untouched by each one-sided trim. -/
theorem trimSpace_eq_self_parts (s : GoStr) (h : trimSpace s = s) :
    s.dropWhile goIsSpace = s ∧ s.rdropWhile goIsSpace = s := by
  have hle1 : (trimSpace s).length ≤ (s.dropWhile goIsSpace).length :=
    (List.rdropWhile_prefix goIsSpace (s.dropWhile goIsSpace)).length_le
  have hle2 : (s.dropWhile goIsSpace).length ≤ s.length :=
    (List.dropWhile_suffix goIsSpace).sublist.length_le
  rw [h] at hle1
  have h2 : s.dropWhile goIsSpace = s :=
    (List.dropWhile_suffix goIsSpace).eq_of_length (by omega)
  refine ⟨h2, ?_⟩
  rw [trimSpace, h2] at h
  exact h

/-- A string with non-space boundary characters is its own trim. -/
theorem trimSpace_eq_self_of (s : GoStr)
    (h1 : ∀ c, s.head? = some c → goIsSpace c = false)
    (h2 : ∀ c, s.getLast? = some c → goIsSpace c = false) : trimSpace s = s := by
  rw [trimSpace, dropWhile_head_false _ _ h1, rdropWhile_last_false _ _ h2]

/-- The head character of a trim output is not white space. -/
theorem trimSpace_head (s : GoStr) :
    ∀ c, (trimSpace s).head? = some c → goIsSpace c = false := by
  intro c hc
  rw [trimSpace] at hc
  obtain ⟨t, ht⟩ := List.rdropWhile_prefix goIsSpace (s.dropWhile goIsSpace)
  have hu : (s.dropWhile goIsSpace).head? = some c := by
    rw [← ht]
    cases htr : (s.dropWhile goIsSpace).rdropWhile goIsSpace with
    | nil => rw [htr] at hc; cases hc
    | cons a lrest =>
      rw [htr] at hc
      have ha : a = c := by simpa using hc
      simp [ha]
  have hne : s.dropWhile goIsSpace ≠ [] := by
    intro hnil; rw [hnil] at hu; cases hu
  have hnot := List.head_dropWhile_not goIsSpace s hne
  have hhd := List.head?_eq_head hne
  rw [hhd] at hu
  have : (s.dropWhile goIsSpace).head hne = c := by injection hu
  rw [← this]
  exact Bool.eq_false_iff.mpr (by simpa using hnot)

/-- The last character of a trim output is not white space. -/
theorem trimSpace_last (s : GoStr) :
    ∀ c, (trimSpace s).getLast? = some c → goIsSpace c = false := by
  intro c hc
  have hne : trimSpace s ≠ [] := by rintro hnil; rw [hnil] at hc; cases hc
  have hne2 : (s.dropWhile goIsSpace).rdropWhile goIsSpace ≠ [] := hne
  have hnot := List.rdropWhile_last_not goIsSpace (s.dropWhile goIsSpace) hne2
  rw [List.getLast?_eq_getLast _ hne] at hc
  have : (trimSpace s).getLast hne = c := by injection hc
  rw [← this]
  exact Bool.eq_false_iff.mpr (by simpa using hnot)

/-- strings.TrimSpace is idempotent. -/
theorem trimSpace_idem (s : GoStr) : trimSpace (trimSpace s) = trimSpace s :=
  trimSpace_eq_self_of _ (trimSpace_head s) (trimSpace_last s)

/-- A trimmed string has a non-space head. -/
theorem TS_headOk (s : GoStr) (h : trimSpace s = s) :
    ∀ c, s.head? = some c → goIsSpace c = false := by
  intro c hc
  cases s with
  | nil => cases hc
  | cons a rest =>
    have ha : a = c := by simpa using hc
    subst ha
    exact dropWhile_eq_self_head goIsSpace a rest (trimSpace_eq_self_parts _ h).1

/-- A trimmed string has a non-space last character. -/
theorem TS_lastOk (s : GoStr) (h : trimSpace s = s) :
    ∀ c, s.getLast? = some c → goIsSpace c = false := fun c hc =>
  rdropWhile_eq_self_last goIsSpace s (trimSpace_eq_self_parts _ h).2 c hc

/-- A character map that sends non-space characters to non-space characters
preserves trimmedness. -/
theorem TS_map (f : Char → Char) (hf : ∀ c, goIsSpace c = false → goIsSpace (f c) = false)
    (s : GoStr) (h : trimSpace s = s) : trimSpace (s.map f) = s.map f := by
  apply trimSpace_eq_self_of
  · intro c hc
    rw [List.head?_map] at hc
    cases hs : s.head? with
    | none => rw [hs] at hc; cases hc
    | some c0 =>
      rw [hs] at hc
      have hfc : f c0 = c := by simpa using hc
      rw [← hfc]
      exact hf c0 (TS_headOk s h c0 hs)
  · intro c hc
    rw [List.getLast?_map] at hc
    cases hs : s.getLast? with
    | none => rw [hs] at hc; cases hc
    | some c0 =>
      rw [hs] at hc
      have hfc : f c0 = c := by simpa using hc
      rw [← hfc]
      exact hf c0 (TS_lastOk s h c0 hs)

/-! ## splitNl structure lemmas -/

/-- joinAll on a cons. -/
theorem joinAll_cons (x : GoStr) (xs : List GoStr) : joinAll (x :: xs) = x ++ joinAll xs := rfl

/-- strings.Split never returns an empty list. -/
theorem splitNl_ne_nil (s : GoStr) : splitNl s ≠ [] := by
  cases s with
  | nil => simp [splitNl]
  | cons c rest =>
    by_cases h : c = '\n'
    · simp [splitNl, h]
    · simp only [splitNl, if_neg h]
      cases splitNl rest <;> simp

/-- Splitting after a leading newline. -/
theorem splitNl_nl (s : GoStr) : splitNl ('\n' :: s) = [] :: splitNl s := by simp [splitNl]

/-- Splitting after a leading non-newline character. -/
theorem splitNl_cons_ne (c : Char) (s : GoStr) (h : c ≠ '\n') (l : GoStr) (ls : List GoStr)
    (hs : splitNl s = l :: ls) : splitNl (c :: s) = (c :: l) :: ls := by
  simp [splitNl, h, hs]

/-- No line produced by strings.Split contains a newline. -/
theorem splitNl_no_nl : ∀ (s : GoStr), ∀ l ∈ splitNl s, '\n' ∉ l := by
  intro s
  induction s with
  | nil =>
    intro l hl
    have : l = [] := by simpa [splitNl] using hl
    subst this
    simp
  | cons c rest ih =>
    intro l hl
    by_cases h : c = '\n'
    · subst h
      rw [splitNl_nl] at hl
      rcases List.mem_cons.mp hl with rfl | hl
      · simp
      · exact ih l hl
    · rcases hsp : splitNl rest with _ | ⟨l1, ls⟩
      · exact absurd hsp (splitNl_ne_nil rest)
      · rw [splitNl_cons_ne c rest h l1 ls hsp] at hl
        rcases List.mem_cons.mp hl with rfl | hl
        · intro hmem
          rcases List.mem_cons.mp hmem with h2 | h2
          · exact h h2.symm
          · exact ih l1 (by rw [hsp]; exact List.mem_cons_self l1 ls) h2
        · exact ih l (by rw [hsp]; exact List.mem_cons_of_mem l1 hl)

/-- A newline-free string is a single line. -/
theorem splitNl_single (s : GoStr) (h : '\n' ∉ s) : splitNl s = [s] := by
  induction s with
  | nil => rfl
  | cons c rest ih =>
    have hc : c ≠ '\n' := fun hh => h (by rw [hh]; exact List.mem_cons_self _ _)
    have hr : '\n' ∉ rest := fun hh => h (List.mem_cons_of_mem c hh)
    exact splitNl_cons_ne c rest hc rest [] (ih hr)

/-- Rejoining the split lines with their newlines restores the string plus a
trailing newline. -/
theorem joinAll_splitNl (s : GoStr) :
    joinAll ((splitNl s).map (fun l => l ++ ['\n'])) = s ++ ['\n'] := by
  induction s with
  | nil => rfl
  | cons c rest ih =>
    by_cases h : c = '\n'
    · subst h
      rw [splitNl_nl, List.map_cons, joinAll_cons, ih]
      simp
    · rcases hsp : splitNl rest with _ | ⟨l1, ls⟩
      · exact absurd hsp (splitNl_ne_nil rest)
      · rw [splitNl_cons_ne c rest h l1 ls hsp, List.map_cons, joinAll_cons]
        rw [hsp, List.map_cons, joinAll_cons] at ih
        simp only [List.cons_append, List.append_assoc] at ih ⊢
        rw [ih]

/-! ## Line-trimmedness through the trimming stages -/

/-- Splitting a string with a trailing newline appends an empty line. -/
theorem splitNl_append_nl : ∀ (l : GoStr), splitNl (l ++ ['\n']) = splitNl l ++ [[]] := by
  intro l
  induction l with
  | nil => rfl
  | cons c l ih =>
    by_cases h : c = '\n'
    · subst h
      rw [List.cons_append, splitNl_nl, splitNl_nl, ih]
      rfl
    · rcases hsp : splitNl l with _ | ⟨l1, ls⟩
      · exact absurd hsp (splitNl_ne_nil l)
      · rw [hsp] at ih
        rw [List.cons_append] at ih
        rw [List.cons_append, splitNl_cons_ne c (l ++ ['\n']) h l1 (ls ++ [[]]) ih,
          splitNl_cons_ne c l h l1 ls hsp]
        rfl

/-- Splitting around an explicit newline separator, when the first part is
newline-free. -/
theorem splitNl_append_line : ∀ (l r : GoStr), '\n' ∉ l →
    splitNl (l ++ '\n' :: r) = l :: splitNl r := by
  intro l
  induction l with
  | nil => intro r _; exact splitNl_nl r
  | cons c l ih =>
    intro r h
    have hc : c ≠ '\n' := fun hh => h (by rw [hh]; exact List.mem_cons_self _ _)
    have hl : '\n' ∉ l := fun hh => h (List.mem_cons_of_mem c hh)
    rw [List.cons_append, splitNl_cons_ne c (l ++ '\n' :: r) hc l (splitNl r) (ih r hl)]

/-- When a non-newline character is appended, some split line ends with it. -/
theorem lastLine_mem : ∀ (l : GoStr) (c : Char), c ≠ '\n' →
    ∃ x, x ++ [c] ∈ splitNl (l ++ [c]) := by
  intro l
  induction l with
  | nil =>
    intro c hc
    refine ⟨[], ?_⟩
    have : splitNl [c] = [[c]] := splitNl_single [c] (by simpa using fun hh => hc hh.symm)
    simp [this]
  | cons a l ih =>
    intro c hc
    obtain ⟨x, hx⟩ := ih c hc
    by_cases ha : a = '\n'
    · subst ha
      exact ⟨x, by rw [List.cons_append, splitNl_nl]; exact List.mem_cons_of_mem _ hx⟩
    · rcases hsp : splitNl (l ++ [c]) with _ | ⟨l1, ls⟩
      · exact absurd hsp (splitNl_ne_nil _)
      · rw [hsp] at hx
        rcases List.mem_cons.mp hx with heq | hmem
        · refine ⟨a :: x, ?_⟩
          rw [List.cons_append, splitNl_cons_ne a _ ha l1 ls hsp, List.cons_append, heq]
          exact List.mem_cons_self _ _
        · exact ⟨x, by
            rw [List.cons_append, splitNl_cons_ne a _ ha l1 ls hsp]
            exact List.mem_cons_of_mem _ hmem⟩

/-- Left-trimming a string whose lines are all trimmed leaves a string whose
lines are all trimmed. -/
theorem LT_dropWhile : ∀ (s : GoStr), (∀ l ∈ splitNl s, trimSpace l = l) →
    ∀ l ∈ splitNl (s.dropWhile goIsSpace), trimSpace l = l := by
  intro s
  induction s with
  | nil => exact fun h => h
  | cons c rest ih =>
    intro h
    by_cases hp : goIsSpace c = true
    · rw [List.dropWhile_cons_of_pos hp]
      by_cases hc : c = '\n'
      · apply ih
        intro l hl
        apply h
        subst hc
        rw [splitNl_nl]
        exact List.mem_cons_of_mem _ hl
      · exfalso
        rcases hsp : splitNl rest with _ | ⟨l1, ls⟩
        · exact splitNl_ne_nil rest hsp
        · have hmem : (c :: l1) ∈ splitNl (c :: rest) := by
            rw [splitNl_cons_ne c rest hc l1 ls hsp]
            exact List.mem_cons_self _ _
          have htr := h _ hmem
          have hdw := (trimSpace_eq_self_parts _ htr).1
          have hfalse := dropWhile_eq_self_head goIsSpace c l1 hdw
          rw [hp] at hfalse
          cases hfalse
    · rw [List.dropWhile_cons_of_neg hp]
      exact h

/-- Right-trimming a string whose lines are all trimmed leaves a string whose
lines are all trimmed. -/
theorem LT_rdropWhile : ∀ (s : GoStr), (∀ l ∈ splitNl s, trimSpace l = l) →
    ∀ l ∈ splitNl (s.rdropWhile goIsSpace), trimSpace l = l := by
  intro s
  induction s using List.reverseRecOn with
  | nil => exact fun h => h
  | append_singleton l c ih =>
    intro h
    by_cases hp : goIsSpace c = true
    · rw [List.rdropWhile_concat_pos _ _ _ hp]
      by_cases hc : c = '\n'
      · apply ih
        intro l' hl'
        apply h
        subst hc
        rw [splitNl_append_nl]
        exact List.mem_append_left _ hl'
      · exfalso
        obtain ⟨x, hx⟩ := lastLine_mem l c hc
        have htr := h _ hx
        have hrd := (trimSpace_eq_self_parts _ htr).2
        rw [List.rdropWhile_concat_pos _ _ _ hp] at hrd
        have h1 := (List.rdropWhile_prefix goIsSpace x).length_le
        rw [hrd] at h1
        simp at h1
    · rw [List.rdropWhile_concat_neg _ _ _ (by simpa using hp)]
      exact h

/-- The lines of a join of trimmed newline-free lines, each closed by a
newline, are trimmed (the final empty line included). -/
theorem LT_joinAll : ∀ (L : List GoStr), (∀ l ∈ L, '\n' ∉ l ∧ trimSpace l = l) →
    ∀ l' ∈ splitNl (joinAll (L.map (fun l => l ++ ['\n']))), trimSpace l' = l' := by
  intro L
  induction L with
  | nil =>
    intro _ l' hl'
    have : l' = [] := by simpa [joinAll, splitNl] using hl'
    subst this
    rfl
  | cons l L ih =>
    intro hL l' hl'
    rw [List.map_cons, joinAll_cons, List.append_assoc, List.singleton_append,
      splitNl_append_line l _ (hL l (List.mem_cons_self _ _)).1] at hl'
    rcases List.mem_cons.mp hl' with rfl | hl'
    · exact (hL l' (List.mem_cons_self _ _)).2
    · exact ih (fun g hg => hL g (List.mem_cons_of_mem l hg)) l' hl'

/-- Every line of a lintTrim output is trimmed. -/
theorem lintTrim_lines (s : GoStr) : ∀ l ∈ splitNl (lintTrim s), trimSpace l = l := by
  have hw : ∀ l ∈ splitNl (joinAll ((splitNl s).map (fun l => trimSpace l ++ ['\n']))),
      trimSpace l = l := by
    have hmm : (splitNl s).map (fun l => trimSpace l ++ ['\n']) =
        ((splitNl s).map trimSpace).map (fun l => l ++ ['\n']) := by
      rw [List.map_map]
      rfl
    rw [hmm]
    apply LT_joinAll
    intro l hl
    obtain ⟨l0, hl0, rfl⟩ := List.mem_map.mp hl
    refine ⟨fun hnl => splitNl_no_nl s l0 hl0 ((trimSpace_sublist l0).subset hnl), trimSpace_idem l0⟩
  intro l hl
  rw [lintTrim, trimSpace] at hl
  exact LT_rdropWhile _ (LT_dropWhile _ hw) l hl

/-- A lintTrim output is trimmed. -/
theorem lintTrim_trimmed (s : GoStr) : trimSpace (lintTrim s) = lintTrim s := by
  rw [lintTrim]
  exact trimSpace_idem _

/-- On a string that is trimmed line by line and as a whole, lintTrim is the
identity. -/
theorem lintTrim_eq_self (s : GoStr) (hLT : ∀ l ∈ splitNl s, trimSpace l = l)
    (hTS : trimSpace s = s) : lintTrim s = s := by
  rw [lintTrim]
  have hmap : (splitNl s).map (fun l => trimSpace l ++ ['\n']) =
      (splitNl s).map (fun l => l ++ ['\n']) :=
    List.map_congr_left (fun l hl => by rw [hLT l hl])
  rw [hmap, joinAll_splitNl]
  rcases s with _ | ⟨a, rest⟩
  · rfl
  · have hparts := trimSpace_eq_self_parts _ hTS
    have ha := dropWhile_eq_self_head goIsSpace a rest hparts.1
    have hd : ((a :: rest) ++ ['\n']).dropWhile goIsSpace = (a :: rest) ++ ['\n'] := by
      apply dropWhile_head_false
      intro c hc
      have : a = c := by simpa using hc
      rw [← this]
      exact ha
    rw [trimSpace, hd, List.rdropWhile_concat_pos _ _ _ (by decide), hparts.2]

/-- lintTrim is idempotent. -/
theorem lintTrim_idem (s : GoStr) : lintTrim (lintTrim s) = lintTrim s :=
  lintTrim_eq_self _ (lintTrim_lines s) (lintTrim_trimmed s)

/-! ## The single-line, seven-bit and space-compression stages -/

/-- The character action of the newline-to-semicolon replacement. -/
def nlSemi (c : Char) : Char := if c = '\n' then ';' else c

/-- One-character replacement is a character map. -/
theorem replaceScan_nl : ∀ s : GoStr, replaceScan ['\n'] [';'] s = s.map nlSemi := by
  intro s
  induction s with
  | nil => rw [replaceScan]; rfl
  | cons c rest ih =>
    rw [replaceScan]
    by_cases hc : c = '\n'
    · subst hc
      have hpre : (['\n'].isPrefixOf ('\n' :: rest)) = true := by
        simp [List.isPrefixOf]
      rw [if_pos hpre]
      simp only [List.length_cons, List.length_nil, Nat.sub_self, List.drop_zero, ih,
        List.map_cons]
      rfl
    · have hpre : (['\n'].isPrefixOf (c :: rest)) = false := by
        simp [List.isPrefixOf]
        exact fun hh => hc hh.symm
      rw [if_neg (by simp [hpre]), ih, List.map_cons]
      have : nlSemi c = c := if_neg hc
      rw [this]

/-- toSingleLine is the character map replacing newlines by semicolons. -/
theorem toSingleLine_eq_map (s : GoStr) : toSingleLine s = s.map nlSemi := by
  rw [toSingleLine, goReplaceAll, if_neg (by decide)]
  exact replaceScan_nl s

/-- The single-line stage leaves no newline behind. -/
theorem toSingleLine_NT (s : GoStr) : '\n' ∉ toSingleLine s := by
  rw [toSingleLine_eq_map]
  intro h
  obtain ⟨c, _, hc⟩ := List.mem_map.mp h
  revert hc
  unfold nlSemi
  by_cases h2 : c = '\n' <;> simp [h2]

/-- The single-line stage is the identity on a newline-free string. -/
theorem toSingleLine_eq_self (s : GoStr) (h : '\n' ∉ s) : toSingleLine s = s := by
  rw [toSingleLine_eq_map,
    List.map_congr_left (fun a ha =>
      show nlSemi a = a from if_neg (fun hh : a = '\n' => h (hh ▸ ha))), List.map_id']

/-- The single-line stage preserves trimmedness. -/
theorem toSingleLine_TS (s : GoStr) (h : trimSpace s = s) :
    trimSpace (toSingleLine s) = toSingleLine s := by
  rw [toSingleLine_eq_map]
  refine TS_map nlSemi ?_ s h
  intro c hc
  unfold nlSemi
  by_cases h2 : c = '\n'
  · subst h2; exact absurd hc (by decide)
  · rw [if_neg h2]; exact hc

/-- keepChar is idempotent on each character. -/
theorem keepChar_idem (c : Char) : keepChar (keepChar c) = keepChar c := by
  by_cases h : (c.toNat < 128 && (asciiPrint c || asciiSpace c)) = true
  · have hc : keepChar c = c := by rw [keepChar, if_pos h]
    rw [hc]
    exact hc
  · have hc : keepChar c = '?' := by rw [keepChar, if_neg h]
    rw [hc]
    decide

/-- keepChar creates no newline. -/
theorem keepChar_nl (c : Char) (h : keepChar c = '\n') : c = '\n' := by
  by_cases h2 : (c.toNat < 128 && (asciiPrint c || asciiSpace c)) = true
  · rw [keepChar, if_pos h2] at h; exact h
  · rw [keepChar, if_neg h2] at h; exact absurd h (by decide)

/-- keepChar maps non-space characters to non-space characters. -/
theorem keepChar_space (c : Char) (h : goIsSpace c = false) : goIsSpace (keepChar c) = false := by
  by_cases h2 : (c.toNat < 128 && (asciiPrint c || asciiSpace c)) = true
  · rw [keepChar, if_pos h2]; exact h
  · rw [keepChar, if_neg h2]; decide

/-- Every character of a keep7Bit output is a keepChar fixed point. -/
theorem keep7Bit_KP (s : GoStr) : ∀ c ∈ keep7Bit s, keepChar c = c := by
  intro c hc
  obtain ⟨c0, _, rfl⟩ := List.mem_map.mp hc
  exact keepChar_idem c0

/-- keep7Bit is the identity on keepChar fixed points. -/
theorem keep7Bit_eq_self (s : GoStr) (h : ∀ c ∈ s, keepChar c = c) : keep7Bit s = s := by
  rw [keep7Bit, List.map_congr_left h, List.map_id']

/-- keep7Bit preserves newline-freeness. -/
theorem keep7Bit_NT (s : GoStr) (h : '\n' ∉ s) : '\n' ∉ keep7Bit s := by
  intro hmem
  obtain ⟨c0, hc0, heq⟩ := List.mem_map.mp hmem
  exact h (keepChar_nl c0 heq ▸ hc0)

/-- keep7Bit preserves trimmedness. -/
theorem keep7Bit_TS (s : GoStr) (h : trimSpace s = s) :
    trimSpace (keep7Bit s) = keep7Bit s :=
  TS_map keepChar keepChar_space s h

/-- splitNl commutes with a character map that fixes exactly the newlines. -/
theorem splitNl_map (f : Char → Char) (hf : ∀ c, (f c = '\n') ↔ (c = '\n')) :
    ∀ s : GoStr, splitNl (s.map f) = (splitNl s).map (List.map f) := by
  intro s
  induction s with
  | nil => rfl
  | cons c rest ih =>
    by_cases hc : c = '\n'
    · subst hc
      rw [List.map_cons, show f '\n' = '\n' from (hf '\n').mpr rfl, splitNl_nl, splitNl_nl,
        List.map_cons, ih]
      rfl
    · rcases hsp : splitNl rest with _ | ⟨l1, ls⟩
      · exact absurd hsp (splitNl_ne_nil rest)
      · have hfc : f c ≠ '\n' := fun hh => hc ((hf c).mp hh)
        rw [List.map_cons,
          splitNl_cons_ne (f c) _ hfc (l1.map f) (ls.map (List.map f))
            (by rw [ih, hsp, List.map_cons]),
          splitNl_cons_ne c rest hc l1 ls hsp, List.map_cons, List.map_cons]

/-- keep7Bit preserves line-by-line trimmedness. -/
theorem keep7Bit_LT (s : GoStr) (h : ∀ l ∈ splitNl s, trimSpace l = l) :
    ∀ l ∈ splitNl (keep7Bit s), trimSpace l = l := by
  rw [keep7Bit, splitNl_map keepChar (fun c => ⟨keepChar_nl c, fun hh => by rw [hh]; decide⟩)]
  intro l hl
  obtain ⟨l0, hl0, rfl⟩ := List.mem_map.mp hl
  exact TS_map keepChar keepChar_space l0 (h l0 hl0)

/-- The ASCII space class is contained in the Go space class. -/
theorem asciiSpace_isSpace (c : Char) (h : asciiSpace c = true) : goIsSpace c = true := by
  simp only [asciiSpace, Bool.or_eq_true] at h
  rcases h with ((((h | h) | h) | h) | h) | h <;>
    simp only [decide_eq_true_eq] at h <;> simp [goIsSpace, h]

/-- compressRuns on the empty string. -/
theorem compressRuns_nil : compressRuns [] = [] := by rw [compressRuns]

/-- compressRuns never empties a non-empty string. -/
theorem compressRuns_ne_nil (c : Char) (rest : GoStr) : compressRuns (c :: rest) ≠ [] := by
  rw [compressRuns]
  split <;> simp

/-- compressRuns on a non-space head. -/
theorem compressRuns_head (c : Char) (rest : GoStr) (h : asciiSpace c = false) :
    compressRuns (c :: rest) = c :: compressRuns rest := by
  rw [compressRuns, if_neg (by simp [h])]

/-- Every character of a compressRuns output is a non-space character of the
input or the single space. -/
theorem mem_compressRuns : ∀ (s : GoStr), ∀ c ∈ compressRuns s,
    (c ∈ s ∧ asciiSpace c = false) ∨ c = ' ' := by
  intro s
  induction s using compressRuns.induct with
  | case1 => intro c hc; rw [compressRuns_nil] at hc; cases hc
  | case2 c rest hsp ih =>
    intro c2 hc2
    rw [compressRuns, if_pos hsp] at hc2
    rcases List.mem_cons.mp hc2 with rfl | hc2
    · right; rfl
    · rcases ih c2 hc2 with ⟨hmem, hns⟩ | h2
      · exact Or.inl ⟨List.mem_cons_of_mem _
          ((List.dropWhile_suffix asciiSpace).sublist.subset hmem), hns⟩
      · exact Or.inr h2
  | case3 c rest hsp ih =>
    intro c2 hc2
    rw [compressRuns_head c rest (Bool.eq_false_iff.mpr hsp)] at hc2
    rcases List.mem_cons.mp hc2 with rfl | hc2
    · exact Or.inl ⟨List.mem_cons_self _ _, Bool.eq_false_iff.mpr hsp⟩
    · rcases ih c2 hc2 with ⟨hm, hn⟩ | h2
      · exact Or.inl ⟨List.mem_cons_of_mem _ hm, hn⟩
      · exact Or.inr h2

/-- compressRuns leaves no newline behind. -/
theorem compressRuns_NT (s : GoStr) : '\n' ∉ compressRuns s := by
  intro h
  rcases mem_compressRuns s '\n' h with ⟨_, hns⟩ | h2
  · exact absurd hns (by decide)
  · exact absurd h2 (by decide)

/-- compressRuns is the identity on a string whose space characters are
single plain spaces. -/
theorem compressRuns_eq_self : ∀ (s : GoStr),
    (∀ c ∈ s, asciiSpace c = true → c = ' ') →
    List.Chain' (fun a b => ¬(asciiSpace a = true ∧ asciiSpace b = true)) s →
    compressRuns s = s := by
  intro s
  induction s using compressRuns.induct with
  | case1 => intro _ _; exact compressRuns_nil
  | case2 c rest hsp ih =>
    intro ha hchain
    have hc : c = ' ' := ha c (List.mem_cons_self _ _) hsp
    have hhd : ∀ b, rest.head? = some b → asciiSpace b = false := by
      intro b hb
      have := (List.chain'_cons'.mp hchain).1 b hb
      rcases hb2 : asciiSpace b with _ | _
      · rfl
      · exact absurd ⟨hsp, hb2⟩ this
    have hdw : rest.dropWhile asciiSpace = rest := dropWhile_head_false asciiSpace rest hhd
    rw [compressRuns, if_pos hsp, hdw]
    rw [hdw] at ih
    rw [ih (fun g hg hs => ha g (List.mem_cons_of_mem _ hg) hs) (List.chain'_cons'.mp hchain).2,
      hc]
  | case3 c rest hsp ih =>
    intro ha hchain
    rw [compressRuns_head c rest (Bool.eq_false_iff.mpr hsp),
      ih (fun g hg hs => ha g (List.mem_cons_of_mem _ hg) hs) (List.chain'_cons'.mp hchain).2]

/-- The head of a dropWhile output fails the predicate. -/
theorem dropWhile_head?_false (p : Char → Bool) (l : GoStr) :
    ∀ b, (l.dropWhile p).head? = some b → p b = false := by
  intro b hb
  have hne : l.dropWhile p ≠ [] := by intro h0; rw [h0] at hb; cases hb
  have hnot := List.head_dropWhile_not p l hne
  rw [List.head?_eq_head hne] at hb
  have hh : (l.dropWhile p).head hne = b := by injection hb
  rw [← hh]
  exact Bool.eq_false_iff.mpr (by simpa using hnot)

/-- compressRuns keeps a non-space head character in place. -/
theorem compressRuns_head?_false (s : GoStr)
    (h : ∀ b, s.head? = some b → asciiSpace b = false) :
    ∀ b, (compressRuns s).head? = some b → asciiSpace b = false := by
  intro b hb
  cases s with
  | nil => rw [compressRuns_nil] at hb; cases hb
  | cons a rest =>
    have ha := h a rfl
    rw [compressRuns_head a rest ha] at hb
    have hab : a = b := by simpa using hb
    rw [← hab]
    exact ha

/-- The compressRuns output has single plain spaces only and no two adjacent
space characters. -/
theorem compressRuns_CP : ∀ (s : GoStr),
    (∀ c ∈ compressRuns s, asciiSpace c = true → c = ' ') ∧
    List.Chain' (fun a b => ¬(asciiSpace a = true ∧ asciiSpace b = true)) (compressRuns s) := by
  intro s
  have hCPa : ∀ c ∈ compressRuns s, asciiSpace c = true → c = ' ' := by
    intro c hc hs
    rcases mem_compressRuns s c hc with ⟨_, hns⟩ | h2
    · rw [hs] at hns; cases hns
    · exact h2
  refine ⟨hCPa, ?_⟩
  clear hCPa
  induction s using compressRuns.induct with
  | case1 => rw [compressRuns_nil]; exact List.chain'_nil
  | case2 c rest hsp ih =>
    rw [compressRuns, if_pos hsp, List.chain'_cons']
    refine ⟨?_, ih⟩
    intro b hb
    rintro ⟨-, hb2⟩
    have hbf := compressRuns_head?_false (rest.dropWhile asciiSpace)
      (dropWhile_head?_false asciiSpace rest) b (Option.mem_def.mp hb)
    rw [hb2] at hbf
    cases hbf
  | case3 c rest hsp ih =>
    rw [compressRuns_head c rest (Bool.eq_false_iff.mpr hsp), List.chain'_cons']
    refine ⟨?_, ih⟩
    intro b hb
    rintro ⟨hc2, -⟩
    exact hsp hc2

/-- The last element of a non-empty suffix is the last element of the list. -/
theorem getLast?_suffix_eq (l2 l : GoStr) (h : l2 <:+ l) (hne : l2 ≠ []) :
    l.getLast? = l2.getLast? := by
  obtain ⟨t, rfl⟩ := h
  exact List.getLast?_append_of_ne_nil t hne

/-- compressRuns preserves a non-space last character. -/
theorem compressRuns_getLast : ∀ (s : GoStr) (c : Char), s.getLast? = some c →
    goIsSpace c = false → (compressRuns s).getLast? = some c := by
  intro s
  induction s using compressRuns.induct with
  | case1 => intro c hc _; cases hc
  | case2 a rest hsp ih =>
    intro c hlast hns
    have hrest_ne : rest ≠ [] := by
      rintro rfl
      have hac : a = c := by simpa using hlast
      rw [hac] at hsp
      rw [asciiSpace_isSpace c hsp] at hns
      cases hns
    have hlast2 : rest.getLast? = some c := by
      cases rest with
      | nil => exact absurd rfl hrest_ne
      | cons b t => rw [← List.getLast?_cons_cons]; exact hlast
    have hdrop_ne : rest.dropWhile asciiSpace ≠ [] := by
      intro h0
      have hall := List.dropWhile_eq_nil_iff.mp h0
      obtain ⟨hmem, heq⟩ := List.mem_getLast?_eq_getLast (Option.mem_def.mpr hlast2)
      have hcin : c ∈ rest := by rw [heq]; exact List.getLast_mem hmem
      rw [asciiSpace_isSpace c (hall c hcin)] at hns
      cases hns
    have hlast3 : (rest.dropWhile asciiSpace).getLast? = some c := by
      rw [← getLast?_suffix_eq _ _ (List.dropWhile_suffix asciiSpace) hdrop_ne]
      exact hlast2
    have hres := ih c hlast3 hns
    rw [compressRuns, if_pos hsp]
    rcases hcr : compressRuns (rest.dropWhile asciiSpace) with _ | ⟨b, t⟩
    · rw [hcr] at hres
      cases hres
    · rw [hcr] at hres
      rw [List.getLast?_cons_cons]
      exact hres
  | case3 a rest hsp ih =>
    intro c hlast hns
    rw [compressRuns_head a rest (Bool.eq_false_iff.mpr hsp)]
    cases rest with
    | nil =>
      have hac : a = c := by simpa using hlast
      rw [hac, compressRuns_nil]
      rfl
    | cons b t =>
      have hlast2 : (b :: t).getLast? = some c := by
        rw [← List.getLast?_cons_cons]; exact hlast
      have hres := ih c hlast2 hns
      rcases hcr : compressRuns (b :: t) with _ | ⟨b2, t2⟩
      · exact absurd hcr (compressRuns_ne_nil b t)
      · rw [hcr] at hres
        rw [List.getLast?_cons_cons]
        exact hres

/-- compressRuns preserves trimmedness. -/
theorem compressRuns_TS (s : GoStr) (h : trimSpace s = s) :
    trimSpace (compressRuns s) = compressRuns s := by
  apply trimSpace_eq_self_of
  · intro c hc
    cases s with
    | nil => rw [compressRuns_nil] at hc; cases hc
    | cons a rest =>
      have ha := TS_headOk _ h a rfl
      have hns : asciiSpace a = false := by
        rcases hsp : asciiSpace a with _ | _
        · rfl
        · rw [asciiSpace_isSpace a hsp] at ha; cases ha
      rw [compressRuns_head a rest hns] at hc
      have hab : a = c := by simpa using hc
      rw [← hab]
      exact ha
  · intro c hc
    cases hs : s.getLast? with
    | none =>
      have : s = [] := List.getLast?_eq_none_iff.mp hs
      subst this
      rw [compressRuns_nil] at hc
      cases hc
    | some c0 =>
      have h0 := TS_lastOk _ h c0 hs
      have hres := compressRuns_getLast s c0 hs h0
      rw [hres] at hc
      have : c0 = c := by injection hc
      rw [← this]
      exact h0

/-! ## Assembling the LintText idempotence -/

/-- On a trimmed string the single-line output is line-by-line trimmed. -/
theorem toSingleLine_LT (x : GoStr) (h : trimSpace x = x) :
    ∀ l ∈ splitNl (toSingleLine x), trimSpace l = l := by
  intro l hl
  rw [splitNl_single _ (toSingleLine_NT x)] at hl
  rcases List.mem_cons.mp hl with rfl | hl
  · exact toSingleLine_TS x h
  · cases hl

/-- On a trimmed string the space-compression output is line-by-line
trimmed. -/
theorem compressRuns_LT (x : GoStr) (h : trimSpace x = x) :
    ∀ l ∈ splitNl (compressRuns x), trimSpace l = l := by
  intro l hl
  rw [splitNl_single _ (compressRuns_NT x)] at hl
  rcases List.mem_cons.mp hl with rfl | hl
  · exact compressRuns_TS x h
  · cases hl

/-- Space compression preserves keepChar fixed points. -/
theorem KP_compressRuns (x : GoStr) (h : ∀ c ∈ x, keepChar c = c) :
    ∀ c ∈ compressRuns x, keepChar c = c := by
  intro c hc
  rcases mem_compressRuns x c hc with ⟨hm, _⟩ | h2
  · exact h c hm
  · rw [h2]; decide

/-- On a string already satisfying the invariants of every enabled stage,
LintText.Transform with non-positive BeginPosition is the identity. -/
theorem lintOut_eq_self (k : LintText) (hb : k.BeginPosition ≤ 0) (u : GoStr)
    (h1 : k.TrimSpaces = true → (∀ l ∈ splitNl u, trimSpace l = l) ∧ trimSpace u = u)
    (h2 : k.CompressToSingleLine = true → '\n' ∉ u)
    (h3 : k.KeepVisible7BitCharOnly = true → ∀ c ∈ u, keepChar c = c)
    (h4 : k.CompressSpaces = true → (∀ c ∈ u, asciiSpace c = true → c = ' ') ∧
      List.Chain' (fun a b => ¬(asciiSpace a = true ∧ asciiSpace b = true)) u)
    (h5 : k.MaxLength > 0 → (u.length : Int) ≤ k.MaxLength) :
    k.lintOut u = u := by
  simp only [LintText.lintOut]
  have e1 : (if k.TrimSpaces = true then lintTrim u else u) = u := by
    by_cases ht : k.TrimSpaces = true
    · rw [if_pos ht]
      exact lintTrim_eq_self u (h1 ht).1 (h1 ht).2
    · rw [if_neg ht]
  rw [e1]
  have e2 : (if k.CompressToSingleLine = true then toSingleLine u else u) = u := by
    by_cases hs : k.CompressToSingleLine = true
    · rw [if_pos hs]
      exact toSingleLine_eq_self u (h2 hs)
    · rw [if_neg hs]
  rw [e2]
  have e3 : (if k.KeepVisible7BitCharOnly = true then keep7Bit u else u) = u := by
    by_cases hk : k.KeepVisible7BitCharOnly = true
    · rw [if_pos hk]
      exact keep7Bit_eq_self u (h3 hk)
    · rw [if_neg hk]
  rw [e3]
  have e4 : (if k.CompressSpaces = true then compressRuns u else u) = u := by
    by_cases hc : k.CompressSpaces = true
    · rw [if_pos hc]
      exact compressRuns_eq_self u (h4 hc).1 (h4 hc).2
    · rw [if_neg hc]
  rw [e4]
  rw [if_neg (show ¬(k.BeginPosition > 0) by omega)]
  by_cases hM : k.MaxLength > 0
  · rw [if_pos hM, if_neg (by have := h5 hM; omega)]
  · rw [if_neg hM]

/-- LintText output lengths are capped by a positive MaxLength. -/
theorem take_length_int (x : GoStr) (M : Int) (hM : M > 0) :
    ((x.take M.toNat).length : Int) ≤ M := by
  have h1 : (x.take M.toNat).length ≤ M.toNat := by
    rw [List.length_take]
    exact min_le_left _ _
  calc ((x.take M.toNat).length : Int) ≤ (M.toNat : Int) := by exact_mod_cast h1
    _ = M := Int.toNat_of_nonneg (by omega)

/-- LintText.Transform with non-positive BeginPosition and without the
trim-then-truncate interaction is idempotent on the combined output. -/
theorem lintOut_idem (k : LintText) (hb : k.BeginPosition ≤ 0)
    (hm : k.TrimSpaces = false ∨ k.MaxLength ≤ 0) (s : GoStr) :
    k.lintOut (k.lintOut s) = k.lintOut s := by
  set s1 : GoStr := if k.TrimSpaces = true then lintTrim s else s with hs1
  set s2 : GoStr := if k.CompressToSingleLine = true then toSingleLine s1 else s1 with hs2
  set s3 : GoStr := if k.KeepVisible7BitCharOnly = true then keep7Bit s2 else s2 with hs3
  set s4 : GoStr := if k.CompressSpaces = true then compressRuns s3 else s3 with hs4
  have hout : k.lintOut s = (if k.MaxLength > 0 then
      (if ((s4.length : Int) > k.MaxLength) then s4.take k.MaxLength.toNat else s4)
      else s4) := by
    rw [hs4, hs3, hs2, hs1]
    simp only [LintText.lintOut]
    rw [if_neg (show ¬(k.BeginPosition > 0) by omega)]
  apply lintOut_eq_self k hb
  · -- trimmedness invariant
    intro ht
    have hM0 : k.MaxLength ≤ 0 := by
      rcases hm with hm | hm
      · rw [ht] at hm; cases hm
      · exact hm
    have hout0 : k.lintOut s = s4 := by
      rw [hout, if_neg (by omega)]
    rw [hout0]
    have g1 : (∀ l ∈ splitNl s1, trimSpace l = l) ∧ trimSpace s1 = s1 := by
      rw [hs1, if_pos ht]
      exact ⟨lintTrim_lines s, lintTrim_trimmed s⟩
    have g2 : (∀ l ∈ splitNl s2, trimSpace l = l) ∧ trimSpace s2 = s2 := by
      by_cases hsg : k.CompressToSingleLine = true
      · rw [hs2, if_pos hsg]
        exact ⟨toSingleLine_LT s1 g1.2, toSingleLine_TS s1 g1.2⟩
      · rw [hs2, if_neg hsg]
        exact g1
    have g3 : (∀ l ∈ splitNl s3, trimSpace l = l) ∧ trimSpace s3 = s3 := by
      by_cases hk : k.KeepVisible7BitCharOnly = true
      · rw [hs3, if_pos hk]
        exact ⟨keep7Bit_LT s2 g2.1, keep7Bit_TS s2 g2.2⟩
      · rw [hs3, if_neg hk]
        exact g2
    by_cases hc : k.CompressSpaces = true
    · rw [hs4, if_pos hc]
      exact ⟨compressRuns_LT s3 g3.2, compressRuns_TS s3 g3.2⟩
    · rw [hs4, if_neg hc]
      exact g3
  · -- newline-freeness invariant
    intro hsg
    have g2 : '\n' ∉ s2 := by
      rw [hs2, if_pos hsg]
      exact toSingleLine_NT s1
    have g3 : '\n' ∉ s3 := by
      by_cases hk : k.KeepVisible7BitCharOnly = true
      · rw [hs3, if_pos hk]
        exact keep7Bit_NT s2 g2
      · rw [hs3, if_neg hk]
        exact g2
    have g4 : '\n' ∉ s4 := by
      by_cases hc : k.CompressSpaces = true
      · rw [hs4, if_pos hc]
        exact compressRuns_NT s3
      · rw [hs4, if_neg hc]
        exact g3
    rw [hout]
    by_cases hM : k.MaxLength > 0
    · rw [if_pos hM]
      by_cases hlen : ((s4.length : Int) > k.MaxLength)
      · rw [if_pos hlen]
        exact fun hmem => g4 (List.take_subset _ s4 hmem)
      · rw [if_neg hlen]
        exact g4
    · rw [if_neg hM]
      exact g4
  · -- keepChar fixed point invariant
    intro hk
    have g3 : ∀ c ∈ s3, keepChar c = c := by
      rw [hs3, if_pos hk]
      exact keep7Bit_KP s2
    have g4 : ∀ c ∈ s4, keepChar c = c := by
      by_cases hc : k.CompressSpaces = true
      · rw [hs4, if_pos hc]
        exact KP_compressRuns s3 g3
      · rw [hs4, if_neg hc]
        exact g3
    rw [hout]
    by_cases hM : k.MaxLength > 0
    · rw [if_pos hM]
      by_cases hlen : ((s4.length : Int) > k.MaxLength)
      · rw [if_pos hlen]
        exact fun c hmem => g4 c (List.take_subset _ s4 hmem)
      · rw [if_neg hlen]
        exact g4
    · rw [if_neg hM]
      exact g4
  · -- compressed-spaces invariant
    intro hc
    have g4 : (∀ c ∈ s4, asciiSpace c = true → c = ' ') ∧
        List.Chain' (fun a b => ¬(asciiSpace a = true ∧ asciiSpace b = true)) s4 := by
      rw [hs4, if_pos hc]
      exact compressRuns_CP s3
    rw [hout]
    by_cases hM : k.MaxLength > 0
    · rw [if_pos hM]
      by_cases hlen : ((s4.length : Int) > k.MaxLength)
      · rw [if_pos hlen]
        exact ⟨fun c hmem hsp => g4.1 c (List.take_subset _ s4 hmem) hsp, g4.2.take _⟩
      · rw [if_neg hlen]
        exact g4
    · rw [if_neg hM]
      exact g4
  · -- length bound invariant
    intro hM
    rw [hout, if_pos hM]
    by_cases hlen : ((s4.length : Int) > k.MaxLength)
    · rw [if_pos hlen]
      exact take_length_int s4 k.MaxLength hM
    · rw [if_neg hlen]
      omega

/-- Counterexample to C4 as stated: with BeginPosition = 1 and everything else
off, transforming "abc" once yields "bc" but twice yields "c". -/
theorem lintText_twice_counterexample :
    ¬(((LintText.Transform ⟨false, false, false, false, 1, 0⟩
        ((LintText.Transform ⟨false, false, false, false, 1, 0⟩
          ⟨default, [], none, "abc".toList⟩).1)).1).CombinedOutput =
      ((LintText.Transform ⟨false, false, false, false, 1, 0⟩
        ⟨default, [], none, "abc".toList⟩).1).CombinedOutput) := by decide

/-- C4 amended: LintText.Transform applied twice with the same configuration
yields the same combined output as applied once, provided BeginPosition is not
positive and the trim flag and a positive MaxLength are not combined (a
positive BeginPosition drops a prefix twice, and trimming after a truncation
that exposes boundary white space shrinks the output again). -/
theorem lintText_idempotent_amended (k : LintText) (r : Result)
    (hb : k.BeginPosition ≤ 0) (hm : k.TrimSpaces = false ∨ k.MaxLength ≤ 0) :
    ((k.Transform (k.Transform r).1).1).CombinedOutput =
      ((k.Transform r).1).CombinedOutput := by
  simp only [LintText.Transform]
  exact lintOut_idem k hb hm r.CombinedOutput

/-- Witness for the amended C4 at a concrete configuration and result. -/
theorem lintText_idempotent_amended_witness :
    ((LintText.Transform ⟨true, true, true, true, 0, 0⟩
        ((LintText.Transform ⟨true, true, true, true, 0, 0⟩
          ⟨default, [], none, "  a\n b  c ".toList⟩).1)).1).CombinedOutput =
      ((LintText.Transform ⟨true, true, true, true, 0, 0⟩
        ⟨default, [], none, "  a\n b  c ".toList⟩).1).CombinedOutput :=
  lintText_idempotent_amended ⟨true, true, true, true, 0, 0⟩
    ⟨default, [], none, "  a\n b  c ".toList⟩ (by decide) (Or.inr (by decide))

/-- A feature and processor for exercising a failing result filter: one ".s"
feature and one third-party result filter that always errs. -/
def c6Feature : Feature :=
  ⟨fun c => { Command := c, Output := c.Content, Error := none, CombinedOutput := [] }⟩

/-- The erring third-party result filter of the C6 example. -/
def c6ErrFilter : ResultFilter := .generic (fun r => (r, some (.custom "boom".toList)))

/-- The processor of the C6 example. -/
def c6Proc : CommandProcessor :=
  { LookupByTrigger := [(".s".toList, c6Feature)]
    CommandFilters := []
    ResultFilters := [c6ErrFilter]
    MaxCmdPerSec := 1 }

/-- Witness for C6: with an erring result filter configured, the returned
result carries the (nil) command-filter disapproval, not the filter error. -/
theorem resultFilter_error_keeps_disapproval_witness :
    (Process c6Proc false true ⟨1, ".s hello".toList, []⟩ true).resultFilterError =
        some (.custom "boom".toList) ∧
      (Process c6Proc false true ⟨1, ".s hello".toList, []⟩ true).ret.Error =
        (Process c6Proc false true ⟨1, ".s hello".toList, []⟩ true).disapproval :=
  ⟨by decide, resultFilter_error_keeps_disapproval c6Proc false true ⟨1, ".s hello".toList, []⟩
      (.custom "boom".toList) (by decide)⟩

end Laitos
